import Mathlib

/-!
# Verification of the lzw3 compressor/decompressor

Shallow embedding of the core of the `lzw3` repository (LZW compression with
variable-width bit-packed codes) and proofs about it.

Source files embedded:
* `lzw3/io/bit.py` (`BitWriter`, `BitReader`)
* `lzw3/compressor.py` (`LZWCompressor`)
* `lzw3/decompressor.py` (`LZWDecompressor`)
* `lzw3/commons/constants.py` (`LZWConstants`)

Files are modelled as lists of byte values (`List Nat`, each `< 256`).
Python unbounded integers are modelled as `Int` where negative values can
occur (the `ROOT` sentinel is `-1`), and as `Nat` where the source only ever
holds non-negative values.
-/

set_option maxRecDepth 100000

namespace LZW3

/-! ## Python integer primitives

The bit layer manipulates Python `int`s with `>>`, `<<` and `&`.  Python
integers are unbounded two's complement: right shift is a floor division by a
power of two (also for negatives), and `x & m` for a non-negative mask `m`
keeps the low bits of `x`, which agree with `x mod 2 ^ k` for any
`k ≥ bits(m)`.  We model these three primitives once and use them in the
translated code. -/

/-- Python `x >> k` on unbounded ints: floor division by `2 ^ k`. -/
def pyShr (x : Int) (k : Nat) : Int := Int.fdiv x ((2 ^ k : Nat) : Int)

/-- Python `x << k` on unbounded ints: multiplication by `2 ^ k`. -/
def pyShl (x : Int) (k : Nat) : Int := x * ((2 ^ k : Nat) : Int)

/-- Python `x & m` for a non-negative mask `m`: only bits of `x` below a bit
position `K` with `m < 2 ^ K` can survive the mask, and for any such `K` the
low bits of the two's complement of `x` are `x mod 2 ^ K` (Euclidean
remainder); we take `K = m + 1`, for which `m < 2 ^ K` always holds. -/
def pyAnd (x : Int) (m : Nat) : Nat := (x.emod ((2 ^ (m + 1) : Nat) : Int)).toNat &&& m

/-! ## Bit strings

Big-endian bit strings used to state what the bit layer writes: `natBits v w`
is the `w`-bit big-endian representation of `v % 2 ^ w` (most significant bit
first), `bitsVal` evaluates a big-endian bit string back to a number. -/

/-- The `w` low bits of `v`, most significant first. -/
def natBits (v w : Nat) : List Bool :=
  (List.range w).map (fun i => v.testBit (w - 1 - i))

/-- Value of a big-endian bit string. -/
def bitsVal (bs : List Bool) : Nat :=
  bs.foldl (fun a b => 2 * a + (if b then 1 else 0)) 0

/-- A byte list seen as a bit string (each byte big-endian, bytes in order). -/
def bytesToBits (bs : List Nat) : List Bool :=
  bs.flatMap (fun b => natBits b 8)

/-- Group a bit string into bytes, 8 bits at a time (the final group may be
shorter; it is then interpreted as the high bits of nothing, which only occurs
in statements where the length is a multiple of 8). -/
def bitsToBytes (bs : List Bool) : List Nat :=
  if h : bs = [] then []
  else
    have : (bs.drop 8).length < bs.length := by
      cases bs with
      | nil => exact absurd rfl h
      | cons x xs => simp [List.length_drop]; omega
    bitsVal (bs.take 8) :: bitsToBytes (bs.drop 8)
termination_by bs.length

/-! ## `lzw3/io/bit.py` -/

def BYTE_SIZE : Nat := 8
def BYTE_MASK : Nat := 0xFF

/-- State of `BitWriter` (`lzw3/io/bit.py`): the bytes written to the file so
far, plus the two fields `_unalignment` and `_unaligned_rest`. -/
structure BitWriterState where
  out : List Nat
  unalignment : Nat
  unaligned_rest : Nat
deriving DecidableEq, Repr

/-- A fresh `BitWriter` on a newly opened (empty) output file. -/
def BitWriterState.init : BitWriterState := ⟨[], 0, 0⟩

/-- The body of the `while shift >= 0` loop inside `BitWriter.write`, with an
explicit iteration budget so that the recursion is structural (the loop runs
`shift / 8 + 1` times; `writeShiftLoop` below always supplies exactly enough
budget, so the `0` case is never reached from it). -/
def writeShiftGo (value : Int) (fuel : Nat) (shift : Int)
    (unalignment unaligned_rest : Nat) (out : List Nat) :
    List Nat × Int × Nat × Nat :=
  match fuel with
  | 0 => (out, shift, unalignment, unaligned_rest)
  | fuel + 1 =>
    if 0 ≤ shift then
      let B := pyAnd (pyShr value shift.toNat) (BYTE_MASK >>> unalignment) ||| unaligned_rest
      writeShiftGo value fuel (shift - 8) 0 0 (out ++ [B])
    else
      (out, shift, unalignment, unaligned_rest)

/-- The `while shift >= 0` loop inside `BitWriter.write`: emits one byte per
iteration and clears the unalignment fields.  Returns the written bytes and
the final values of `shift`, `_unalignment` and `_unaligned_rest`. -/
def writeShiftLoop (value : Int) (shift : Int) (unalignment unaligned_rest : Nat)
    (out : List Nat) : List Nat × Int × Nat × Nat :=
  writeShiftGo value ((shift + 8).toNat / 8 + 1) shift unalignment unaligned_rest out

/-- `BitWriter.write(value, bits_per_write)` from `lzw3/io/bit.py`. -/
def BitWriterState.write (st : BitWriterState) (value : Int) (bits_per_write : Nat) :
    BitWriterState :=
  let shift : Int := (bits_per_write : Int) - ((BYTE_SIZE : Int) - (st.unalignment : Int))
  let r := writeShiftLoop value shift st.unalignment st.unaligned_rest st.out
  let out := r.1
  let shift := r.2.1
  let rest := r.2.2.2
  let unalignment := (shift + 8).toNat
  let unaligned_rest := pyAnd (pyShl value (BYTE_SIZE - unalignment)) BYTE_MASK ||| rest
  ⟨out, unalignment, unaligned_rest⟩

/-- `BitWriter.close()` from `lzw3/io/bit.py`: zeroes `_unalignment`, writes
the pending `_unaligned_rest` as a full byte, and returns the file content. -/
def BitWriterState.close (st : BitWriterState) : List Nat :=
  let st := { st with unalignment := 0 }
  (st.write (st.unaligned_rest : Int) BYTE_SIZE).out

/-- State of `BitReader` (`lzw3/io/bit.py`): the bytes of the file not yet
consumed, plus the fields `_bits_per_read`, `_read_bit_count`,
`_unaligned_rest` and `_eof`. -/
structure BitReaderState where
  remaining : List Nat
  bits_per_read : Nat
  read_bit_count : Nat
  unaligned_rest : Nat
  eof : Bool
deriving DecidableEq, Repr

/-- A fresh `BitReader` on a file with content `file` (the constructor's
default `bits_per_read` is `BYTE_SIZE`). -/
def BitReaderState.init (file : List Nat) : BitReaderState :=
  ⟨file, BYTE_SIZE, 0, 0, false⟩

/-- The `while self._read_bit_count < self._bits_per_read` loop inside
`BitReader.__next__`, together with the epilogue that splits off the excess
bits.  Returns the value produced and the final
`(remaining, read_bit_count, unaligned_rest, eof)`.  On end of file the
source returns the (stale) field `self._unaligned_rest` and sets `_eof`. -/
def readBitLoop (bits_per_read : Nat) (remaining : List Nat)
    (read_bit_count : Nat) (v : Nat) (rest_field : Nat) :
    Nat × List Nat × Nat × Nat × Bool :=
  if read_bit_count < bits_per_read then
    match remaining with
    | [] => (rest_field, [], read_bit_count, rest_field, true)
    | B :: tl => readBitLoop bits_per_read tl (read_bit_count + BYTE_SIZE)
        (B ||| (v <<< BYTE_SIZE)) rest_field
  else
    let count := read_bit_count - bits_per_read
    let rest := v &&& (BYTE_MASK >>> (BYTE_SIZE - count))
    (v >>> count, remaining, count, rest, false)

/-- `BitReader.__next__` from `lzw3/io/bit.py`.  `none` models the
`StopIteration` raised when `_eof` is already set. -/
def BitReaderState.next (st : BitReaderState) : Option (Nat × BitReaderState) :=
  if st.eof then none
  else
    let r := readBitLoop st.bits_per_read st.remaining st.read_bit_count
      st.unaligned_rest st.unaligned_rest
    some (r.1, { st with
      remaining := r.2.1
      read_bit_count := r.2.2.1
      unaligned_rest := r.2.2.2.1
      eof := r.2.2.2.2 })

/-- `BitReader.read(bits_per_read)` from `lzw3/io/bit.py`: sets the read width
and delegates to `__next__`. -/
def BitReaderState.read (st : BitReaderState) (bits_per_read : Nat) :
    Option (Nat × BitReaderState) :=
  { st with bits_per_read := bits_per_read }.next

/-- `BitReader.set_bits_per_read` from `lzw3/io/bit.py`. -/
def BitReaderState.set_bits_per_read (st : BitReaderState) (bits_per_read : Nat) :
    BitReaderState :=
  { st with bits_per_read := bits_per_read }

/-! ## `lzw3/commons/constants.py` -/

namespace LZWConstants

/-- Integer value for represents the root of the sequences. -/
def ROOT : Int := -1

/-- Size of the alphabet. -/
def ALPHABET_SIZE : Nat := 256

/-- Value of the sequence that represents the EOF. -/
def STREAM_END : Nat := ALPHABET_SIZE

end LZWConstants

/-! ## `lzw3/compressor.py` (`LZWCompressor`)

The in-memory state of the compressor.  `_sequence_table` is a Python dict
with distinct keys `(parent, edge)`; we model it as an association list with
the most recent insertion first (insertion order is irrelevant because keys
are never overwritten).  The parent is an `Int` because the `ROOT` sentinel
is `-1`; edges are the byte read (or `STREAM_END` for the special entry). -/

structure CompressorState where
  sequence_table : List ((Int × Nat) × Nat)
  next_sequence_number : Nat
  current_sequence_bit_count : Nat
deriving DecidableEq, Repr

namespace CompressorState

/-- `LZWCompressor._insert_next_sequence` (`lzw3/compressor.py`): stores the
next sequence number under `(parent_seq, edge)`, then bumps the bit count by
`next_sequence_number >> current_sequence_bit_count` and increments the next
sequence number. -/
def insert_next_sequence (st : CompressorState) (parent_seq : Int) (edge : Nat) :
    CompressorState where
  sequence_table := ((parent_seq, edge), st.next_sequence_number) :: st.sequence_table
  current_sequence_bit_count :=
    st.current_sequence_bit_count +
      (st.next_sequence_number >>> st.current_sequence_bit_count)
  next_sequence_number := st.next_sequence_number + 1

/-- Key lookup in the `_sequence_table` dict. -/
def lookupTable (table : List ((Int × Nat) × Nat)) (parent_seq : Int) (edge : Nat) :
    Option Nat :=
  match table with
  | [] => none
  | (k, v) :: tl =>
      if k = (parent_seq, edge) then some v else lookupTable tl parent_seq edge

/-- `LZWCompressor._get_sequence` (`lzw3/compressor.py`). -/
def get_sequence (st : CompressorState) (parent_seq : Int) (edge : Nat) : Option Nat :=
  lookupTable st.sequence_table parent_seq edge

/-- The alphabet-initialization loop of `LZWCompressor._init`: insert edges
`(ROOT, i)` for `i = 0 .. n-1` in order. -/
def initLoop (st : CompressorState) : Nat → CompressorState
  | 0 => st
  | n + 1 => (initLoop st n).insert_next_sequence LZWConstants.ROOT n

/-- `LZWCompressor._init` (`lzw3/compressor.py`): empty table, counters zero,
then all alphabet edges from `ROOT` and finally the `STREAM_END` edge. -/
def init : CompressorState :=
  (initLoop ⟨[], 0, 0⟩ LZWConstants.ALPHABET_SIZE).insert_next_sequence
    LZWConstants.ROOT LZWConstants.STREAM_END

end CompressorState

/-- One iteration of the main loop of `LZWCompressor.compress`: processes the
input byte `c` given the dictionary state, the current `seq_parent` and the
output writer; returns the updated triple.  The trace accumulator `trace`
records each `(sequence, bit count)` pair passed to `_write_sequence`
(ghost data: it does not influence the computation). -/
def compressStep (cst : CompressorState) (seq_parent : Int) (w : BitWriterState)
    (trace : List (Int × Nat)) (c : Nat) :
    CompressorState × Int × BitWriterState × List (Int × Nat) :=
  match cst.get_sequence seq_parent c with
  | some seq => (cst, (seq : Int), w, trace)
  | none =>
      let w := w.write seq_parent cst.current_sequence_bit_count
      let trace := trace ++ [(seq_parent, cst.current_sequence_bit_count)]
      let cst := cst.insert_next_sequence seq_parent c
      -- `seq_parent = self._get_sequence(ROOT, c)`; the alphabet edge is
      -- present whenever `c < 256` (seeded by `_init`), so `getD` never
      -- actually falls back for byte input.
      let seq_parent : Int := ((cst.get_sequence LZWConstants.ROOT c).getD 0 : Nat)
      (cst, seq_parent, w, trace)

/-- The main loop of `LZWCompressor.compress` over the whole input. -/
def compressLoop (cst : CompressorState) (seq_parent : Int) (w : BitWriterState)
    (trace : List (Int × Nat)) :
    List Nat → CompressorState × Int × BitWriterState × List (Int × Nat)
  | [] => (cst, seq_parent, w, trace)
  | c :: cs =>
      let r := compressStep cst seq_parent w trace c
      compressLoop r.1 r.2.1 r.2.2.1 r.2.2.2 cs

/-- `LZWCompressor.compress` (`lzw3/compressor.py`) on an in-memory byte list:
initializes the dictionary, runs the main loop from `seq_parent = ROOT`,
writes the final `seq_parent`, writes `STREAM_END`, and closes the writer.
Returns the bytes of the output file together with the trace of
`(sequence, bit count)` pairs passed to `_write_sequence`. -/
def compressWithTrace (input : List Nat) : List Nat × List (Int × Nat) :=
  let cst := CompressorState.init
  let r := compressLoop cst LZWConstants.ROOT BitWriterState.init [] input
  let cst := r.1
  let seq_parent := r.2.1
  let w := r.2.2.1
  let trace := r.2.2.2
  let w := w.write seq_parent cst.current_sequence_bit_count
  let trace := trace ++ [(seq_parent, cst.current_sequence_bit_count)]
  let w := w.write (LZWConstants.STREAM_END : Int) cst.current_sequence_bit_count
  let trace := trace ++ [((LZWConstants.STREAM_END : Int), cst.current_sequence_bit_count)]
  (w.close, trace)

/-- The output file produced by `LZWCompressor.compress`. -/
def compressBytes (input : List Nat) : List Nat := (compressWithTrace input).1

/-- The `(sequence, bit count)` pairs passed to `_write_sequence` during
`LZWCompressor.compress`. -/
def compressTrace (input : List Nat) : List (Int × Nat) := (compressWithTrace input).2

/-- `LZWCompressor.compress(in_file_path, out_file_path)` at the file level:
`none` models a missing input file, for which the source logs and returns
`False` before opening the output file.  Otherwise the input is compressed
and the call returns `True`.  The second component is the content of the
output file (`none` when it was never created). -/
def compressFile (input : Option (List Nat)) : Bool × Option (List Nat) :=
  match input with
  | none => (false, none)
  | some bs => (true, some (compressBytes bs))

/-! ## `lzw3/decompressor.py` (`LZWDecompressor`)

`_sequence_table` is a Python list of paths indexed by sequence number;
indexing out of range raises `IndexError`, modelled by `Option` propagation
(`none` = an uncaught exception escaping `decompress`). -/

structure DecompressorState where
  sequence_table : List (List Nat)
  next_sequence_number : Nat
  current_sequence_bit_count : Nat
deriving DecidableEq, Repr

namespace DecompressorState

/-- `LZWDecompressor._insert_next_sequence_path` (`lzw3/decompressor.py`):
appends the path, increments the next sequence number, then bumps the bit
count by `next_sequence_number >> current_sequence_bit_count` (note: with the
already incremented number, one step before the compressor). -/
def insert_next_sequence_path (st : DecompressorState) (seq_path : List Nat) :
    DecompressorState where
  sequence_table := st.sequence_table ++ [seq_path]
  next_sequence_number := st.next_sequence_number + 1
  current_sequence_bit_count :=
    st.current_sequence_bit_count +
      ((st.next_sequence_number + 1) >>> st.current_sequence_bit_count)

/-- `LZWDecompressor._get_sequence_path` (`lzw3/decompressor.py`):
`self._sequence_table[seq]`; `none` models the `IndexError` on an
out-of-range index. -/
def get_sequence_path (st : DecompressorState) (seq : Nat) : Option (List Nat) :=
  st.sequence_table[seq]?

/-- The alphabet-initialization loop of `LZWDecompressor._init`: insert paths
`[i]` for `i = 0 .. n-1` in order. -/
def initLoop (st : DecompressorState) : Nat → DecompressorState
  | 0 => st
  | n + 1 => (initLoop st n).insert_next_sequence_path [n]

/-- `LZWDecompressor._init` (`lzw3/decompressor.py`). -/
def init : DecompressorState :=
  (initLoop ⟨[], 0, 0⟩ LZWConstants.ALPHABET_SIZE).insert_next_sequence_path
    [LZWConstants.STREAM_END]

end DecompressorState

/-- Result of one iteration of the main loop of `LZWDecompressor.decompress`:
either `break` out of the loop, or continue with the updated loop state, or
die with an uncaught exception. -/
inductive DecompressStepResult where
  | brk
  | continue (dst : DecompressorState) (seq_parent_path seq_path : List Nat)
      (seq_path_first : Nat) (reader : BitReaderState) (written : List Nat)
  | error
deriving DecidableEq, Repr

/-- The body of the `for seq in self._in_file` loop of
`LZWDecompressor.decompress` (`lzw3/decompressor.py`), for a value `seq`
just yielded by the reader.  `written` collects the bytes passed to
`self._out_file.write`. -/
def decompressStep (dst : DecompressorState) (seq_parent_path seq_path : List Nat)
    (seq_path_first : Nat) (reader : BitReaderState) (seq : Nat) :
    DecompressStepResult :=
  if seq = LZWConstants.STREAM_END then .brk
  else
    let is_normal_case := decide (seq < dst.next_sequence_number)
    -- "normal" case: look the path up (always in range) and take its head;
    -- the paths in the table are never empty, so `getD` never falls back.
    let seq_path := if is_normal_case
      then (dst.get_sequence_path seq).getD [] else seq_path
    let seq_path_first := if is_normal_case
      then seq_path.headD 0 else seq_path_first
    let new_seq_path := seq_parent_path ++ [seq_path_first]
    let dst := dst.insert_next_sequence_path new_seq_path
    let seq_out_path := if is_normal_case then seq_path else new_seq_path
    let reader := reader.set_bits_per_read dst.current_sequence_bit_count
    -- the path is written to the output file and becomes the new
    -- `seq_parent_path`
    .continue dst seq_out_path seq_path seq_path_first reader seq_out_path

/-- The `for seq in self._in_file` loop of `LZWDecompressor.decompress`.
`fuel` bounds the number of iterations (each iteration of the source loop
consumes at least one byte of the file because the read width is always at
least 9, see `decompressGo_fuel_irrelevant`-style arguments in the theorems);
`none` models an uncaught exception. -/
def decompressGo (fuel : Nat) (dst : DecompressorState)
    (seq_parent_path seq_path : List Nat) (seq_path_first : Nat)
    (reader : BitReaderState) (out : List Nat) : Option (List Nat) :=
  match fuel with
  | 0 => none
  | fuel + 1 =>
    match reader.next with
    | none => some out  -- StopIteration: the for loop ends
    | some (seq, reader) =>
      match decompressStep dst seq_parent_path seq_path seq_path_first reader seq with
      | .brk => some out
      | .error => none
      | .continue dst spp sp spf reader written =>
          decompressGo fuel dst spp sp spf reader (out ++ written)

/-- `LZWDecompressor.decompress` (`lzw3/decompressor.py`) on an in-memory byte
list: initializes the table, reads the first sequence at the current bit
count, writes its path, then runs the main loop.  `none` models an uncaught
exception (in particular the `IndexError` when the first sequence is not in
the table).  The fuel `file.length + 1` is enough for the loop to run until
`STREAM_END` or end of file, because every iteration consumes at least one
byte. -/
def decompressBytes (file : List Nat) : Option (List Nat) :=
  let dst := DecompressorState.init
  let reader := BitReaderState.init file
  match reader.read dst.current_sequence_bit_count with
  | none => none
  | some (seq_parent, reader) =>
    match dst.get_sequence_path seq_parent with
    | none => none  -- IndexError
    | some seq_parent_path =>
      match seq_parent_path.head? with
      | none => none  -- IndexError on seq_parent_path[0]
      | some seq_path_first =>
        decompressGo (file.length + 1) dst seq_parent_path seq_parent_path
          seq_path_first reader seq_parent_path

/-- `LZWDecompressor.decompress(in_file_path, out_file_path)` at the file
level: `none` input models a missing input file (source returns `False`
before creating the output file).  Otherwise the result is `True` together
with the output file content, or an uncaught exception (outer `none`). -/
def decompressFile (input : Option (List Nat)) : Option (Bool × Option (List Nat)) :=
  match input with
  | none => some (false, none)
  | some bs =>
    match decompressBytes bs with
    | some out => some (true, some out)
    | none => none

/-! ## Write/read drivers

Drivers used to state the `BitWriter`/`BitReader` contracts: perform a
sequence of `write(value, nbits)` calls followed by `close()`, and read a
file back with a given sequence of widths. -/

/-- Run `write(value, nbits)` for each pair of `ws` in order. -/
def writeValues (st : BitWriterState) (ws : List (Nat × Nat)) : BitWriterState :=
  ws.foldl (fun st p => st.write (p.1 : Int) p.2) st

/-- The file produced by writing all pairs of `ws` on a fresh `BitWriter` and
closing it. -/
def writeFileBytes (ws : List (Nat × Nat)) : List Nat :=
  (writeValues BitWriterState.init ws).close

/-- Read values back from a reader with the given sequence of widths (using
`BitReader.read`, which sets the width and yields the next value). -/
def readValues (st : BitReaderState) : List Nat → List Nat
  | [] => []
  | w :: ws =>
    match st.read w with
    | none => []
    | some (v, st) => v :: readValues st ws

/-- The total number of bits of a write sequence. -/
def totalBits (ws : List (Nat × Nat)) : Nat :=
  (ws.map Prod.snd).sum

/-- The big-endian bit string denoted by a write sequence: the `nbits` least
significant bits of each value, in call order. -/
def valueBits (ws : List (Nat × Nat)) : List Bool :=
  ws.flatMap (fun p => natBits p.1 p.2)

/-! ## Abstraction invariants

Correspondences between the concrete bit I/O states and the abstract bit
strings they denote; used to prove the `BitWriter`/`BitReader` contracts. -/

/-- The bit window of length `n` starting at bit position `p` of a file. -/
def bitSlice (F : List Nat) (p n : Nat) : List Bool :=
  ((bytesToBits F).drop p).take n

/-- `BitWriterState` abstraction: the state denotes the bit string `B` when
the file holds the whole-byte prefix of `B` and the remaining
`unalignment`-many bits of `B` are staged in the top bits of
`unaligned_rest`. -/
def WInv (st : BitWriterState) (B : List Bool) : Prop :=
  ∃ S : List Bool,
    B = bytesToBits st.out ++ S ∧
    S.length = st.unalignment ∧
    st.unalignment < 8 ∧
    st.unaligned_rest = bitsVal S * 2 ^ (8 - st.unalignment) ∧
    (∀ b ∈ st.out, b < 256)

/-- `BitReaderState` abstraction: the reader on file `F` is at bit position
`p` when it has consumed the first `k` bytes and buffers the
`read_bit_count`-many bits between `p` and `8 * k` in `unaligned_rest`. -/
def RInv (st : BitReaderState) (F : List Nat) (p : Nat) : Prop :=
  ∃ k : Nat,
    k ≤ F.length ∧
    st.remaining = F.drop k ∧
    st.read_bit_count < 8 ∧
    p + st.read_bit_count = 8 * k ∧
    st.unaligned_rest = bitsVal (bitSlice F p st.read_bit_count) ∧
    st.eof = false ∧
    (∀ b ∈ F, b < 256)

/-! ## Bit string lemmas -/

theorem natBits_length (v w : Nat) : (natBits v w).length = w := by
  simp [natBits]

theorem natBits_mod (v w : Nat) : natBits (v % 2 ^ w) w = natBits v w := by
  unfold natBits
  refine List.map_congr_left (fun i hi => ?_)
  rw [List.mem_range] at hi
  rw [Nat.testBit_mod_two_pow]
  have : w - 1 - i < w := by omega
  simp [this]

theorem natBits_split (v : Nat) {w k : Nat} (h : k ≤ w) :
    natBits v w = natBits (v >>> k) (w - k) ++ natBits v k := by
  unfold natBits
  rw [show List.range w = List.range ((w - k) + k) by rw [Nat.sub_add_cancel h]]
  rw [List.range_add, List.map_append, List.map_map]
  congr 1
  · refine List.map_congr_left (fun i hi => ?_)
    rw [List.mem_range] at hi
    rw [Nat.testBit_shiftRight]
    congr 1
    omega
  · refine List.map_congr_left (fun i hi => ?_)
    rw [List.mem_range] at hi
    simp only [Function.comp_apply]
    congr 1
    omega

theorem bitsVal_nil : bitsVal [] = 0 := rfl

theorem bitsVal_foldl (bs : List Bool) (a : Nat) :
    bs.foldl (fun x b => 2 * x + (if b then 1 else 0)) a =
      a * 2 ^ bs.length + bitsVal bs := by
  induction bs generalizing a with
  | nil => simp [bitsVal]
  | cons b tl ih =>
      show List.foldl _ (2 * a + _) tl = _
      have hc : bitsVal (b :: tl) = (if b then 1 else 0) * 2 ^ tl.length + bitsVal tl := by
        show List.foldl _ (2 * 0 + _) tl = _
        rw [ih]
        congr 1
        cases b <;> norm_num
      rw [ih, hc, List.length_cons, pow_succ]
      ring

theorem bitsVal_cons (b : Bool) (tl : List Bool) :
    bitsVal (b :: tl) = (if b then 1 else 0) * 2 ^ tl.length + bitsVal tl := by
  show List.foldl _ (2 * 0 + _) tl = _
  rw [bitsVal_foldl]
  congr 1
  cases b <;> norm_num

theorem bitsVal_append (a b : List Bool) :
    bitsVal (a ++ b) = bitsVal a * 2 ^ b.length + bitsVal b := by
  unfold bitsVal
  rw [List.foldl_append]
  exact bitsVal_foldl b _

theorem bitsVal_lt (bs : List Bool) : bitsVal bs < 2 ^ bs.length := by
  induction bs with
  | nil => simp [bitsVal]
  | cons b tl ih =>
      rw [bitsVal_cons]
      have : (if b then 1 else 0) ≤ 1 := by split <;> omega
      simp only [List.length_cons, Nat.pow_succ]
      nlinarith

theorem bitsVal_natBits (v w : Nat) : bitsVal (natBits v w) = v % 2 ^ w := by
  induction w generalizing v with
  | zero => simp [natBits, bitsVal, Nat.mod_one]
  | succ w ih =>
      rw [natBits_split v (k := w) (by omega), bitsVal_append, natBits_length]
      have h1 : natBits (v >>> w) (w + 1 - w) = [(v >>> w).testBit 0] := by
        have : w + 1 - w = 1 := by omega
        rw [this]
        simp [natBits, List.range_succ]
      rw [h1, ih]
      have h2 : bitsVal [(v >>> w).testBit 0] = v / 2 ^ w % 2 := by
        rw [bitsVal_cons]
        simp only [Nat.testBit, Nat.shiftRight_eq_div_pow, bitsVal_nil]
        rcases Nat.mod_two_eq_zero_or_one (v / 2 ^ w) with h | h <;>
          simp [Nat.and_one_is_mod, h]
      rw [h2, Nat.mod_pow_succ]
      ring

theorem natBits_bitsVal (bs : List Bool) : natBits (bitsVal bs) bs.length = bs := by
  induction bs with
  | nil => simp [natBits, bitsVal]
  | cons b tl ih =>
      rw [List.length_cons, bitsVal_cons]
      set d : Nat := if b then 1 else 0 with hd
      set L : Nat := tl.length with hL
      set r : Nat := bitsVal tl with hr
      have hlt : r < 2 ^ L := bitsVal_lt tl
      rw [natBits_split _ (k := L) (by omega)]
      have hshift : (d * 2 ^ L + r) >>> L = d := by
        rw [Nat.shiftRight_eq_div_pow, Nat.add_comm,
          Nat.add_mul_div_right _ _ (by positivity : (0:ℕ) < 2 ^ L),
          Nat.div_eq_of_lt hlt]
        omega
      have hone : L + 1 - L = 1 := by omega
      have hhead : natBits d 1 = [b] := by
        have hb : d.testBit 0 = b := by
          rw [hd]
          cases b <;> simp
        simp [natBits, List.range_succ, hb]
      have hmod : (d * 2 ^ L + r) % 2 ^ L = r := by
        rw [Nat.mul_comm d, Nat.mul_add_mod, Nat.mod_eq_of_lt hlt]
      have htail : natBits (d * 2 ^ L + r) L = tl := by
        rw [← natBits_mod, hmod, hr, hL, ih]
      rw [hshift, hone, hhead, htail]
      rfl

theorem natBits_zero (w : Nat) : natBits 0 w = List.replicate w false := by
  unfold natBits
  rw [List.eq_replicate_iff]
  refine ⟨by simp, fun b hb => ?_⟩
  rw [List.mem_map] at hb
  obtain ⟨i, -, hi⟩ := hb
  rw [← hi, Nat.zero_testBit]

/-- Gluing two bit strings numerically: the number whose high `j` bits are `a`
and low `k` bits are `b`. -/
theorem natBits_combine {a b : Nat} (j k : Nat) (hb : b < 2 ^ k) :
    natBits (a * 2 ^ k + b) (j + k) = natBits a j ++ natBits b k := by
  have hsplit := natBits_split (a * 2 ^ k + b) (w := j + k) (k := k) (by omega)
  have hshift : (a * 2 ^ k + b) >>> k = a := by
    rw [Nat.shiftRight_eq_div_pow, Nat.add_comm,
      Nat.add_mul_div_right _ _ (by positivity : (0:ℕ) < 2 ^ k),
      Nat.div_eq_of_lt hb]
    omega
  have hmod : (a * 2 ^ k + b) % 2 ^ k = b := by
    rw [Nat.mul_comm, Nat.mul_add_mod, Nat.mod_eq_of_lt hb]
  rw [hsplit, hshift, ← natBits_mod (a * 2 ^ k + b) k, hmod]
  congr 2
  omega

/-- Bitwise or of a shifted value with a small value is addition. -/
theorem mul_pow_lor_eq_add (c b k : Nat) (hb : b < 2 ^ k) :
    (c * 2 ^ k) ||| b = c * 2 ^ k + b := by
  have hc : ∀ i, (c * 2 ^ k).testBit i = (decide (k ≤ i) && c.testBit (i - k)) := by
    intro i
    rw [← Nat.shiftLeft_eq, Nat.testBit_shiftLeft]
  apply Nat.eq_of_testBit_eq
  intro i
  rw [Nat.testBit_lor, hc,
    show c * 2 ^ k + b = 2 ^ k * c + b by ring,
    Nat.testBit_mul_pow_two_add _ hb]
  by_cases hik : i < k
  · simp [hik, Nat.not_le.mpr hik]
  · have hbf : b.testBit i = false :=
      Nat.testBit_lt_two_pow
        (lt_of_lt_of_le hb (Nat.pow_le_pow_right (by omega) (by omega)))
    simp [hik, hbf, Nat.not_lt.mp hik]

/-! ## The Python primitives on non-negative values and mask shapes -/

theorem pyShr_ofNat (v k : Nat) : pyShr (v : Int) k = ((v >>> k : Nat) : Int) := by
  unfold pyShr
  rw [Int.fdiv_eq_ediv _ (by positivity), Nat.shiftRight_eq_div_pow]
  push_cast
  rfl

theorem size_two_pow_sub_one (j : Nat) : Nat.size (2 ^ j - 1) = j := by
  rcases Nat.eq_zero_or_pos j with h | h
  · subst h; simp
  · apply Nat.le_antisymm
    · have h2 : 0 < 2 ^ j := Nat.pos_pow_of_pos j (by norm_num)
      rw [Nat.size_le]
      omega
    · have hlt := Nat.pow_lt_pow_right (a := 2) (by norm_num) (show j - 1 < j by omega)
      have hle : 2 ^ (j - 1) ≤ 2 ^ j - 1 := by omega
      have := Nat.lt_size.mpr hle
      omega

/-- `pyAnd` with an all-ones mask `2 ^ j - 1` is the Euclidean remainder
modulo `2 ^ j`. -/
theorem pyAnd_mask (x : Int) (j : Nat) :
    pyAnd x (2 ^ j - 1) = (x.emod (2 ^ j)).toNat := by
  unfold pyAnd
  rw [Nat.and_pow_two_sub_one_eq_mod]
  set K : Nat := 2 ^ j - 1 + 1 with hK
  have hjK : (2:Nat) ^ j ∣ 2 ^ K := by
    apply Nat.pow_dvd_pow
    have := Nat.lt_two_pow j
    omega
  set y : Int := x.emod ((2 ^ K : Nat) : Int) with hy
  have hy0 : 0 ≤ y := Int.emod_nonneg x (by positivity)
  have hmod : y.toNat % 2 ^ j = (y.emod ((2 ^ j : Nat) : Int)).toNat := by
    have hcast : ((y.toNat % 2 ^ j : Nat) : Int) = y.emod ((2 ^ j : Nat) : Int) := by
      rw [Int.natCast_mod, Int.toNat_of_nonneg hy0]
      rfl
    omega
  rw [hmod, hy]
  have hdvd : ((2 ^ j : Nat) : Int) ∣ ((2 ^ K : Nat) : Int) := Int.natCast_dvd_natCast.mpr hjK
  have hpow : ((2 ^ j : Nat) : Int) = (2 : Int) ^ j := by push_cast; rfl
  rw [hpow] at hdvd
  rw [hpow]
  show (x % ((2 ^ K : Nat) : Int) % (2 : Int) ^ j).toNat = (x % (2 : Int) ^ j).toNat
  rw [Int.emod_emod_of_dvd x hdvd]

theorem pyAnd_ofNat_mask (v j : Nat) : pyAnd (v : Int) (2 ^ j - 1) = v % 2 ^ j := by
  rw [pyAnd_mask]
  have : ((v : Int)).emod (2 ^ j) = ((v % 2 ^ j : Nat) : Int) := by push_cast; rfl
  rw [this, Int.toNat_ofNat]

theorem byteMask_shift {u : Nat} (h : u ≤ 8) : BYTE_MASK >>> u = 2 ^ (8 - u) - 1 := by
  interval_cases u <;> rfl

theorem byteMask_eq : BYTE_MASK = 2 ^ 8 - 1 := rfl

/-! ## bytesToBits and bitsToBytes -/

theorem bytesToBits_nil : bytesToBits [] = [] := rfl

theorem bytesToBits_cons (b : Nat) (bs : List Nat) :
    bytesToBits (b :: bs) = natBits b 8 ++ bytesToBits bs := by
  unfold bytesToBits
  rw [List.flatMap_cons]

theorem bytesToBits_append (a b : List Nat) :
    bytesToBits (a ++ b) = bytesToBits a ++ bytesToBits b := by
  unfold bytesToBits
  rw [List.flatMap_append]

theorem bytesToBits_length (bs : List Nat) : (bytesToBits bs).length = 8 * bs.length := by
  induction bs with
  | nil => rfl
  | cons b tl ih =>
      rw [bytesToBits_cons, List.length_append, natBits_length, ih, List.length_cons]
      ring

theorem bitsToBytes_bytesToBits {bs : List Nat} (h : ∀ b ∈ bs, b < 256) :
    bitsToBytes (bytesToBits bs) = bs := by
  induction bs with
  | nil =>
      rw [bytesToBits_nil, bitsToBytes]
      simp
  | cons b tl ih =>
      rw [bytesToBits_cons]
      have hlen : (natBits b 8).length = 8 := natBits_length b 8
      have hne : natBits b 8 ++ bytesToBits tl ≠ [] := by
        intro hc
        rw [List.append_eq_nil] at hc
        rw [hc.1] at hlen
        simp at hlen
      rw [bitsToBytes, dif_neg hne]
      rw [List.take_left' hlen]
      show bitsVal (natBits b 8) ::
        bitsToBytes (List.drop 8 (natBits b 8 ++ bytesToBits tl)) = b :: tl
      rw [List.drop_left' hlen]
      rw [bitsVal_natBits, ih (fun x hx => h x (by simp [hx]))]
      have hb : b < 2 ^ 8 := h b (by simp)
      rw [Nat.mod_eq_of_lt hb]

/-! ## BitWriter correctness -/

theorem writeShiftLoop_neg (value : Int) {shift : Int} (h : shift < 0)
    (una rest : Nat) (out : List Nat) :
    writeShiftLoop value shift una rest out = (out, shift, una, rest) := by
  unfold writeShiftLoop
  rw [writeShiftGo]
  rw [if_neg (by omega)]

theorem writeShiftLoop_pos (value : Int) {shift : Int} (h : 0 ≤ shift)
    (una rest : Nat) (out : List Nat) :
    writeShiftLoop value shift una rest out =
      writeShiftLoop value (shift - 8) 0 0
        (out ++ [pyAnd (pyShr value shift.toNat) (BYTE_MASK >>> una) ||| rest]) := by
  unfold writeShiftLoop
  have hfuel : (shift + 8).toNat / 8 + 1 = ((shift - 8 + 8).toNat / 8 + 1) + 1 := by
    omega
  rw [hfuel, writeShiftGo]
  rw [if_pos h]

/-- After its first iteration, the writer loop runs with cleared unalignment:
starting at shift `t ≥ -8` it emits the window of `value` between bit
`(t+8) % 8` and bit `t + 8`, one byte per iteration, and stages nothing. -/
theorem writeShiftLoop_tail_aux (v : Nat) :
    ∀ (n : Nat) (t : Int), t < 8 * n → -8 ≤ t → ∀ out : List Nat,
    ∃ chunk : List Nat,
      writeShiftLoop (v : Int) t 0 0 out =
        (out ++ chunk, (((t + 8).toNat % 8 : Nat) : Int) - 8, 0, 0) ∧
      (∀ b ∈ chunk, b < 256) ∧
      bytesToBits chunk =
        natBits (v >>> ((t + 8).toNat % 8)) ((t + 8).toNat - (t + 8).toNat % 8) := by
  intro n
  induction n with
  | zero =>
      intro t ht ht8 out
      refine ⟨[], ?_, by simp, ?_⟩
      · rw [writeShiftLoop_neg _ (by omega), List.append_nil]
        congr 2
        omega
      · have h8 : (t + 8).toNat < 8 := by omega
        rw [Nat.mod_eq_of_lt h8, Nat.sub_self, bytesToBits_nil]
        rfl
  | succ n ih =>
      intro t ht ht8 out
      by_cases h0 : 0 ≤ t
      · -- one iteration, then the induction hypothesis at t - 8
        rw [writeShiftLoop_pos _ h0]
        have hB : pyAnd (pyShr (v : Int) t.toNat) (BYTE_MASK >>> 0) ||| 0 =
            (v >>> t.toNat) % 2 ^ 8 := by
          rw [pyShr_ofNat, Nat.or_zero]
          rw [show BYTE_MASK >>> 0 = 2 ^ 8 - 1 from rfl, pyAnd_ofNat_mask]
        obtain ⟨chunk, heq, hlt, hbits⟩ :=
          ih (t - 8) (by omega) (by omega) (out ++ [(v >>> t.toNat) % 2 ^ 8])
        have ht8' : (t - 8 + 8).toNat = t.toNat := by omega
        have htt : (t + 8).toNat = t.toNat + 8 := by omega
        rw [ht8'] at heq hbits
        refine ⟨(v >>> t.toNat) % 2 ^ 8 :: chunk, ?_, ?_, ?_⟩
        · rw [hB, heq, List.append_assoc]
          have hmod : t.toNat % 8 = (t + 8).toNat % 8 := by omega
          rw [hmod]
          rfl
        · intro b hb
          rcases List.mem_cons.mp hb with h | h
          · subst h
            exact Nat.mod_lt _ (by norm_num)
          · exact hlt b h
        · rw [bytesToBits_cons, hbits, natBits_mod]
          have hr : t.toNat % 8 ≤ t.toNat := Nat.mod_le _ _
          have hsplit := natBits_split (v >>> (t.toNat % 8))
            (w := t.toNat + 8 - t.toNat % 8) (k := t.toNat - t.toNat % 8) (by omega)
          rw [Nat.shiftRight_eq_div_pow, Nat.shiftRight_eq_div_pow,
            Nat.div_div_eq_div_mul, ← Nat.pow_add, ← Nat.shiftRight_eq_div_pow] at hsplit
          have harith1 : t.toNat % 8 + (t.toNat - t.toNat % 8) = t.toNat := by omega
          have harith2 : t.toNat + 8 - t.toNat % 8 - (t.toNat - t.toNat % 8) = 8 := by
            omega
          rw [harith1, harith2] at hsplit
          rw [htt]
          have hmod : (t.toNat + 8) % 8 = t.toNat % 8 := by omega
          rw [hmod]
          rw [hsplit, Nat.shiftRight_eq_div_pow]
      · exact ⟨[], by
          rw [writeShiftLoop_neg _ (by omega), List.append_nil]
          constructor
          · congr 2
            omega
          · constructor
            · simp
            · have h8 : (t + 8).toNat < 8 := by omega
              rw [Nat.mod_eq_of_lt h8, Nat.sub_self, bytesToBits_nil]
              rfl⟩

theorem writeShiftLoop_tail (v : Nat) (t : Int) (ht : -8 ≤ t) (out : List Nat) :
    ∃ chunk : List Nat,
      writeShiftLoop (v : Int) t 0 0 out =
        (out ++ chunk, (((t + 8).toNat % 8 : Nat) : Int) - 8, 0, 0) ∧
      (∀ b ∈ chunk, b < 256) ∧
      bytesToBits chunk =
        natBits (v >>> ((t + 8).toNat % 8)) ((t + 8).toNat - (t + 8).toNat % 8) :=
  writeShiftLoop_tail_aux v ((t + 8).toNat / 8 + 1) t (by omega) ht out

/-- `BitWriter.write` appends the `w` low bits of `v` to the abstract bit
string (for in-range values `v < 2 ^ w`). -/
theorem WInv_write {st : BitWriterState} {B : List Bool} (h : WInv st B)
    (v w : Nat) (hw : 1 ≤ w) (hv : v < 2 ^ w) :
    WInv (st.write (v : Int) w) (B ++ natBits v w) := by
  obtain ⟨S, hB, hSlen, huna, hrest, hbytes⟩ := h
  by_cases hcase : w + st.unalignment < 8
  · -- the loop does not run: the w bits are staged
    have hneg : (w : Int) - ((BYTE_SIZE : Int) - (st.unalignment : Int)) < 0 := by
      simp only [BYTE_SIZE]
      push_cast
      omega
    have h1 : (((w : Int) - ((BYTE_SIZE : Int) - (st.unalignment : Int))) + 8).toNat
        = st.unalignment + w := by
      simp only [BYTE_SIZE]
      omega
    have hstep : st.write (v : Int) w =
        ⟨st.out, st.unalignment + w,
          pyAnd (pyShl (v : Int) (8 - (st.unalignment + w))) BYTE_MASK |||
            st.unaligned_rest⟩ := by
      simp only [BitWriterState.write, writeShiftLoop_neg _ hneg, h1]
      rfl
    rw [hstep]
    refine ⟨S ++ natBits v w, ?_, ?_, ?_, ?_, hbytes⟩
    · rw [hB, List.append_assoc]
    · rw [List.length_append, natBits_length, hSlen]
    · show st.unalignment + w < 8
      omega
    · show pyAnd (pyShl (v : Int) (8 - (st.unalignment + w))) BYTE_MASK |||
          st.unaligned_rest = bitsVal (S ++ natBits v w) * 2 ^ (8 - (st.unalignment + w))
      have hshl : pyShl (v : Int) (8 - (st.unalignment + w)) =
          ((v * 2 ^ (8 - (st.unalignment + w)) : Nat) : Int) := by
        unfold pyShl
        push_cast
        ring
      rw [hshl, byteMask_eq, pyAnd_ofNat_mask, hrest]
      have hvlt : v * 2 ^ (8 - (st.unalignment + w)) < 2 ^ (8 - st.unalignment) := by
        calc v * 2 ^ (8 - (st.unalignment + w))
            < 2 ^ w * 2 ^ (8 - (st.unalignment + w)) :=
              (Nat.mul_lt_mul_right (by positivity)).mpr hv
          _ = 2 ^ (8 - st.unalignment) := by
              rw [← Nat.pow_add]
              congr 1
              omega
      have hmod : v * 2 ^ (8 - (st.unalignment + w)) % 2 ^ 8 =
          v * 2 ^ (8 - (st.unalignment + w)) := by
        apply Nat.mod_eq_of_lt
        have : (2:Nat) ^ (8 - st.unalignment) ≤ 2 ^ 8 :=
          Nat.pow_le_pow_right (by norm_num) (by omega)
        omega
      rw [hmod, Nat.lor_comm, mul_pow_lor_eq_add _ _ _ hvlt]
      rw [bitsVal_append, natBits_length, bitsVal_natBits, Nat.mod_eq_of_lt hv]
      have hpow : (2:Nat) ^ (8 - st.unalignment) =
          2 ^ w * 2 ^ (8 - (st.unalignment + w)) := by
        rw [← Nat.pow_add]
        congr 1
        omega
      rw [hpow]
      ring
  · -- the loop runs at least once
    have hpos : (0:Int) ≤ (w : Int) - ((BYTE_SIZE : Int) - (st.unalignment : Int)) := by
      simp only [BYTE_SIZE]
      push_cast
      omega
    set s0 : Nat := w + st.unalignment - 8 with hs0
    have hs0' : ((w : Int) - ((BYTE_SIZE : Int) - (st.unalignment : Int))).toNat = s0 := by
      simp only [BYTE_SIZE]
      omega
    have hs0w : s0 ≤ w := by omega
    have hmask : BYTE_MASK >>> st.unalignment = 2 ^ (8 - st.unalignment) - 1 :=
      byteMask_shift (by omega)
    have hxlt : (v >>> s0) % 2 ^ (8 - st.unalignment) < 2 ^ (8 - st.unalignment) :=
      Nat.mod_lt _ (by positivity)
    have hB0 : pyAnd (pyShr (v : Int) s0) (BYTE_MASK >>> st.unalignment) |||
          st.unaligned_rest =
        bitsVal S * 2 ^ (8 - st.unalignment) +
          (v >>> s0) % 2 ^ (8 - st.unalignment) := by
      rw [pyShr_ofNat, hmask, pyAnd_ofNat_mask, hrest, Nat.lor_comm,
        mul_pow_lor_eq_add _ _ _ hxlt]
    obtain ⟨chunk, heq, hclt, hcbits⟩ := writeShiftLoop_tail v
      ((w : Int) - ((BYTE_SIZE : Int) - (st.unalignment : Int)) - 8) (by omega)
      (st.out ++ [bitsVal S * 2 ^ (8 - st.unalignment) +
        (v >>> s0) % 2 ^ (8 - st.unalignment)])
    have htn : (((w : Int) - ((BYTE_SIZE : Int) - (st.unalignment : Int)) - 8) + 8).toNat
        = s0 := by
      simp only [BYTE_SIZE]
      omega
    rw [htn] at heq hcbits
    set r : Nat := s0 % 8 with hr
    have hstep : st.write (v : Int) w =
        ⟨st.out ++ [bitsVal S * 2 ^ (8 - st.unalignment) +
            (v >>> s0) % 2 ^ (8 - st.unalignment)] ++ chunk,
          r,
          pyAnd (pyShl (v : Int) (8 - r)) BYTE_MASK ||| 0⟩ := by
      simp only [BitWriterState.write]
      rw [writeShiftLoop_pos _ hpos, hs0', hB0, heq]
      have h2 : ((((r : Nat) : Int) - 8) + 8).toNat = r := by omega
      simp only [h2]
      rfl
    rw [hstep]
    have hB0lt : bitsVal S * 2 ^ (8 - st.unalignment) +
        (v >>> s0) % 2 ^ (8 - st.unalignment) < 256 := by
      have h1 : bitsVal S < 2 ^ st.unalignment := by
        have := bitsVal_lt S
        rw [hSlen] at this
        exact this
      have h2 : (2:Nat) ^ st.unalignment * 2 ^ (8 - st.unalignment) = 256 := by
        rw [← Nat.pow_add, show st.unalignment + (8 - st.unalignment) = 8 by omega]
      calc bitsVal S * 2 ^ (8 - st.unalignment) +
            (v >>> s0) % 2 ^ (8 - st.unalignment)
          < bitsVal S * 2 ^ (8 - st.unalignment) + 2 ^ (8 - st.unalignment) :=
            Nat.add_lt_add_left hxlt _
        _ = (bitsVal S + 1) * 2 ^ (8 - st.unalignment) := by ring
        _ ≤ 2 ^ st.unalignment * 2 ^ (8 - st.unalignment) :=
            mul_le_mul_right' (by omega : bitsVal S + 1 ≤ 2 ^ st.unalignment) _
        _ = 256 := h2
    have hfirst : natBits (bitsVal S * 2 ^ (8 - st.unalignment) +
        (v >>> s0) % 2 ^ (8 - st.unalignment)) 8 =
        S ++ natBits (v >>> s0) (8 - st.unalignment) := by
      have h1 : bitsVal S < 2 ^ st.unalignment := by
        have := bitsVal_lt S
        rw [hSlen] at this
        exact this
      have hc := natBits_combine (a := bitsVal S)
        (b := (v >>> s0) % 2 ^ (8 - st.unalignment))
        st.unalignment (8 - st.unalignment) hxlt
      rw [show st.unalignment + (8 - st.unalignment) = 8 by omega] at hc
      rw [hc, natBits_mod]
      congr 1
      rw [← hSlen, natBits_bitsVal]
    have hone : ∀ X : Nat, bytesToBits [X] = natBits X 8 := by
      intro X
      rw [show [X] = X :: ([] : List Nat) from rfl, bytesToBits_cons, bytesToBits_nil,
        List.append_nil]
    refine ⟨natBits v r, ?_, natBits_length _ _, ?_, ?_, ?_⟩
    · show B ++ natBits v w = bytesToBits (st.out ++ _ ++ chunk) ++ natBits v r
      rw [bytesToBits_append, bytesToBits_append, hB]
      have hsingle : bytesToBits [bitsVal S * 2 ^ (8 - st.unalignment) +
          (v >>> s0) % 2 ^ (8 - st.unalignment)] =
          S ++ natBits (v >>> s0) (8 - st.unalignment) := by
        rw [hone, hfirst]
      rw [hsingle, hcbits]
      have hsplit1 := natBits_split v (w := w) (k := s0) hs0w
      have hsplit2 := natBits_split v (w := s0) (k := r) (Nat.mod_le _ _)
      have hws0 : w - s0 = 8 - st.unalignment := by omega
      rw [hsplit1, hws0, hsplit2]
      simp only [List.append_assoc]
    · show r < 8
      omega
    · show pyAnd (pyShl (v : Int) (8 - r)) BYTE_MASK ||| 0 =
        bitsVal (natBits v r) * 2 ^ (8 - r)
      have hshl : pyShl (v : Int) (8 - r) = ((v * 2 ^ (8 - r) : Nat) : Int) := by
        unfold pyShl
        push_cast
        ring
      rw [hshl, byteMask_eq, pyAnd_ofNat_mask, Nat.or_zero, bitsVal_natBits]
      have h256 : (2:Nat) ^ 8 = 2 ^ r * 2 ^ (8 - r) := by
        rw [← Nat.pow_add]
        congr 1
        have : r < 8 := Nat.mod_lt _ (by norm_num)
        omega
      rw [h256, Nat.mul_mod_mul_right]
    · intro b hb
      rcases List.mem_append.mp hb with hb | hb
      · rcases List.mem_append.mp hb with hb | hb
        · exact hbytes b hb
        · rw [List.mem_singleton] at hb
          subst hb
          exact hB0lt
      · exact hclt b hb

theorem WInv_init : WInv BitWriterState.init [] :=
  ⟨[], rfl, rfl, by show (0:Nat) < 8; norm_num, rfl, by simp [BitWriterState.init]⟩

/-- `BitWriter.close` flushes the staged byte: the file is the previous bytes
plus one byte holding `unaligned_rest`. -/
theorem BitWriterState_close_eq {st : BitWriterState} (h : st.unaligned_rest < 256) :
    st.close = st.out ++ [st.unaligned_rest] := by
  unfold BitWriterState.close
  simp only [BitWriterState.write]
  have hsh : ((BYTE_SIZE : Nat) : Int) - ((BYTE_SIZE : Int) - ((0:Nat) : Int)) = 0 := by
    simp
  rw [hsh, writeShiftLoop_pos _ (by norm_num)]
  have hB0 : pyAnd (pyShr (st.unaligned_rest : Int) (Int.toNat 0)) (BYTE_MASK >>> 0) |||
      st.unaligned_rest = st.unaligned_rest := by
    rw [show Int.toNat 0 = 0 from rfl, pyShr_ofNat, Nat.shiftRight_zero,
      show BYTE_MASK >>> 0 = 2 ^ 8 - 1 from rfl, pyAnd_ofNat_mask]
    rw [Nat.mod_eq_of_lt (show st.unaligned_rest < 2 ^ 8 from h), Nat.or_self]
  rw [hB0, writeShiftLoop_neg _ (by norm_num)]

/-- The byte flushed by `close` is in range and its bits are the staged bits
padded with zeros at the low end. -/
theorem WInv_close {st : BitWriterState} {B : List Bool} (h : WInv st B) :
    bytesToBits st.close = B ++ List.replicate (8 - st.unalignment) false ∧
    (∀ b ∈ st.close, b < 256) ∧
    st.unalignment = B.length % 8 := by
  obtain ⟨S, hB, hSlen, huna, hrest, hbytes⟩ := h
  have hSlt : bitsVal S < 2 ^ st.unalignment := by
    have := bitsVal_lt S
    rw [hSlen] at this
    exact this
  have h2 : (2:Nat) ^ st.unalignment * 2 ^ (8 - st.unalignment) = 256 := by
    rw [← Nat.pow_add, show st.unalignment + (8 - st.unalignment) = 8 by omega]
  have hrlt : st.unaligned_rest < 256 := by
    rw [hrest]
    calc bitsVal S * 2 ^ (8 - st.unalignment)
        < (bitsVal S + 1) * 2 ^ (8 - st.unalignment) := by
          have hp : (0:Nat) < 2 ^ (8 - st.unalignment) := by positivity
          nlinarith
      _ ≤ 2 ^ st.unalignment * 2 ^ (8 - st.unalignment) :=
          mul_le_mul_right' (by omega : bitsVal S + 1 ≤ 2 ^ st.unalignment) _
      _ = 256 := h2
  have hone : ∀ X : Nat, bytesToBits [X] = natBits X 8 := by
    intro X
    rw [show [X] = X :: ([] : List Nat) from rfl, bytesToBits_cons, bytesToBits_nil,
      List.append_nil]
  rw [BitWriterState_close_eq hrlt]
  refine ⟨?_, ?_, ?_⟩
  · rw [bytesToBits_append, hone, hB, List.append_assoc]
    congr 1
    have hzlt : (0:Nat) < 2 ^ (8 - st.unalignment) := by positivity
    have hc := natBits_combine (a := bitsVal S) (b := 0)
      st.unalignment (8 - st.unalignment) hzlt
    rw [show st.unalignment + (8 - st.unalignment) = 8 by omega] at hc
    rw [hrest, show bitsVal S * 2 ^ (8 - st.unalignment) =
      bitsVal S * 2 ^ (8 - st.unalignment) + 0 by omega, hc, natBits_zero]
    congr 1
    rw [← hSlen, natBits_bitsVal]
  · intro b hb
    rcases List.mem_append.mp hb with hb | hb
    · exact hbytes b hb
    · rw [List.mem_singleton] at hb
      subst hb
      exact hrlt
  · rw [hB, List.length_append, bytesToBits_length, ← hSlen]
    omega

/-- Folding `write` over a list of in-range `(value, width)` pairs appends all
their bits. -/
theorem WInv_writeValues (ws : List (Nat × Nat)) :
    ∀ (st : BitWriterState) (B : List Bool), WInv st B →
    (∀ p ∈ ws, 1 ≤ p.2 ∧ p.1 < 2 ^ p.2) →
    WInv (writeValues st ws) (B ++ valueBits ws) := by
  induction ws with
  | nil =>
      intro st B h _
      simpa [writeValues, valueBits] using h
  | cons p tl ih =>
      intro st B h hws
      have h1 := WInv_write h p.1 p.2 (hws p (by simp)).1 (hws p (by simp)).2
      have h2 := ih _ _ h1 (fun q hq => hws q (by simp [hq]))
      have hv : valueBits (p :: tl) = natBits p.1 p.2 ++ valueBits tl := by
        unfold valueBits
        rw [List.flatMap_cons]
      rw [hv, show writeValues st (p :: tl) = writeValues (st.write (p.1 : Int) p.2) tl
        from rfl, ← List.append_assoc]
      exact h2

/-- The file written by a sequence of in-range writes followed by `close` is
the concatenation of the values' low bits, zero-padded at the low end to the
next byte boundary; when the bits fill the last byte exactly, a full extra
zero byte is appended (`8 - 0 = 8` padding bits). -/
theorem writeFileBytes_spec (ws : List (Nat × Nat))
    (h : ∀ p ∈ ws, 1 ≤ p.2 ∧ p.1 < 2 ^ p.2) :
    writeFileBytes ws =
      bitsToBytes (valueBits ws ++
        List.replicate (8 - (valueBits ws).length % 8) false) := by
  have hinv := WInv_writeValues ws BitWriterState.init [] WInv_init h
  rw [List.nil_append] at hinv
  obtain ⟨hbits, hlt, hmod⟩ := WInv_close hinv
  unfold writeFileBytes
  rw [← bitsToBytes_bytesToBits hlt, hbits, hmod]

/-! ## BitReader correctness -/

theorem bytesToBits_drop (F : List Nat) : ∀ k : Nat,
    (bytesToBits F).drop (8 * k) = bytesToBits (F.drop k) := by
  induction F with
  | nil => intro k; simp [bytesToBits]
  | cons b tl ih =>
      intro k
      cases k with
      | zero => simp
      | succ k =>
          rw [bytesToBits_cons, show 8 * (k + 1) = 8 + 8 * k by ring, ← List.drop_drop]
          have hlen : (natBits b 8).length = 8 := natBits_length b 8
          rw [List.drop_left' hlen, ih k]
          rfl

theorem bitSlice_length {F : List Nat} {p n : Nat} (h : p + n ≤ 8 * F.length) :
    (bitSlice F p n).length = n := by
  unfold bitSlice
  rw [List.length_take, List.length_drop, bytesToBits_length]
  omega

theorem bitSlice_split (F : List Nat) (p m n : Nat) :
    bitSlice F p (m + n) = bitSlice F p m ++ bitSlice F (p + m) n := by
  unfold bitSlice
  rw [List.take_add]
  congr 1
  rw [List.drop_drop]

theorem bitSlice_byte {F : List Nat} {k : Nat} {b : Nat} (h : F[k]? = some b) :
    bitSlice F (8 * k) 8 = natBits b 8 := by
  have hk : k < F.length := by
    by_contra hc
    rw [List.getElem?_eq_none (by omega)] at h
    cases h
  unfold bitSlice
  rw [bytesToBits_drop, List.drop_eq_getElem_cons hk, bytesToBits_cons]
  have hb : F[k] = b := by
    have := List.getElem?_eq_getElem hk
    rw [this] at h
    injection h
  rw [hb, List.take_left' (natBits_length b 8)]

theorem readBitLoop_exit {w : Nat} {rem : List Nat} {count v rf : Nat}
    (h : ¬ count < w) :
    readBitLoop w rem count v rf =
      (v >>> (count - w), rem, count - w,
        v &&& (BYTE_MASK >>> (BYTE_SIZE - (count - w))), false) := by
  rw [readBitLoop.eq_def, if_neg h]

theorem readBitLoop_eof {w count v rf : Nat} (h : count < w) :
    readBitLoop w [] count v rf = (rf, [], count, rf, true) := by
  rw [readBitLoop.eq_def, if_pos h]

theorem readBitLoop_cons {w b : Nat} {tl : List Nat} {count v rf : Nat} (h : count < w) :
    readBitLoop w (b :: tl) count v rf =
      readBitLoop w tl (count + BYTE_SIZE) (b ||| (v <<< BYTE_SIZE)) rf := by
  rw [readBitLoop.eq_def, if_pos h]

/-- Main loop of `BitReader.__next__`: starting with the buffered bits between
`p` and `8 * k`, reading width `w` returns the bits `[p, p + w)` of the file
and buffers the excess up to the next consumed byte boundary. -/
theorem readBitLoop_go (F : List Nat) (hF : ∀ b ∈ F, b < 256) (w p : Nat)
    (hbound : p + w ≤ 8 * F.length) :
    ∀ (n k : Nat), w ≤ 8 * k - p + 8 * n → k ≤ F.length → p ≤ 8 * k →
      8 * k - p < w + 8 → ∀ rest_f : Nat,
    ∃ k' : Nat, k' ≤ F.length ∧ p + w ≤ 8 * k' ∧ 8 * k' - (p + w) < 8 ∧
      readBitLoop w (F.drop k) (8 * k - p) (bitsVal (bitSlice F p (8 * k - p))) rest_f =
        (bitsVal (bitSlice F p w), F.drop k', 8 * k' - (p + w),
          bitsVal (bitSlice F (p + w) (8 * k' - (p + w))), false) := by
  have exit_case : ∀ k : Nat, k ≤ F.length → p ≤ 8 * k → 8 * k - p < w + 8 →
      w ≤ 8 * k - p → ∀ rest_f : Nat,
      readBitLoop w (F.drop k) (8 * k - p) (bitsVal (bitSlice F p (8 * k - p))) rest_f =
        (bitsVal (bitSlice F p w), F.drop k, 8 * k - (p + w),
          bitsVal (bitSlice F (p + w) (8 * k - (p + w))), false) := by
    intro k hk hp hcw hge rest_f
    rw [readBitLoop_exit (by omega)]
    have hsp := bitSlice_split F p w (8 * k - p - w)
    rw [show w + (8 * k - p - w) = 8 * k - p by omega] at hsp
    have hlen2 : (bitSlice F (p + w) (8 * k - p - w)).length = 8 * k - p - w :=
      bitSlice_length (by omega)
    have hlen1 : (bitSlice F p w).length = w := bitSlice_length (by omega)
    have hvlt : bitsVal (bitSlice F (p + w) (8 * k - p - w)) < 2 ^ (8 * k - p - w) := by
      have := bitsVal_lt (bitSlice F (p + w) (8 * k - p - w))
      rw [hlen2] at this
      exact this
    have hv : bitsVal (bitSlice F p (8 * k - p)) =
        bitsVal (bitSlice F p w) * 2 ^ (8 * k - p - w) +
          bitsVal (bitSlice F (p + w) (8 * k - p - w)) := by
      rw [hsp, bitsVal_append, hlen2]
    have hcount : 8 * k - p - w = 8 * k - (p + w) := by omega
    have hshift : bitsVal (bitSlice F p (8 * k - p)) >>> (8 * k - p - w) =
        bitsVal (bitSlice F p w) := by
      rw [hv, Nat.shiftRight_eq_div_pow, Nat.add_comm,
        Nat.add_mul_div_right _ _ (by positivity : (0:ℕ) < 2 ^ (8 * k - p - w)),
        Nat.div_eq_of_lt hvlt]
      omega
    have hrest : bitsVal (bitSlice F p (8 * k - p)) &&&
        (BYTE_MASK >>> (BYTE_SIZE - (8 * k - p - w))) =
        bitsVal (bitSlice F (p + w) (8 * k - p - w)) := by
      have hm : BYTE_MASK >>> (BYTE_SIZE - (8 * k - p - w)) =
          2 ^ (8 * k - p - w) - 1 := by
        have h1 : BYTE_SIZE - (8 * k - p - w) ≤ 8 := by
          simp only [BYTE_SIZE]
          omega
        rw [byteMask_shift h1]
        have h2 : 8 - (BYTE_SIZE - (8 * k - p - w)) = 8 * k - p - w := by
          simp only [BYTE_SIZE]
          omega
        rw [h2]
      rw [hm, Nat.and_pow_two_sub_one_eq_mod, hv, Nat.mul_comm, Nat.mul_add_mod,
        Nat.mod_eq_of_lt hvlt]
    show (_, _, _, _, _) = _
    rw [hshift, hrest, hcount]
  intro n
  induction n with
  | zero =>
      intro k hn hk hp hcw rest_f
      exact ⟨k, hk, by omega, by omega, exit_case k hk hp hcw (by omega) rest_f⟩
  | succ n ih =>
      intro k hn hk hp hcw rest_f
      by_cases hge : w ≤ 8 * k - p
      · exact ⟨k, hk, by omega, by omega, exit_case k hk hp hcw hge rest_f⟩
      · -- consume one byte and continue
        have hklt : k < F.length := by omega
        have hgetsome : F[k]? = some F[k] := List.getElem?_eq_getElem hklt
        have hdrop : F.drop k = F[k] :: F.drop (k + 1) := List.drop_eq_getElem_cons hklt
        have hblt : F[k] < 256 := hF _ (List.getElem_mem hklt)
        have hstep : F[k] ||| (bitsVal (bitSlice F p (8 * k - p)) <<< BYTE_SIZE) =
            bitsVal (bitSlice F p (8 * (k + 1) - p)) := by
          have hsp := bitSlice_split F p (8 * k - p) 8
          rw [show p + (8 * k - p) = 8 * k by omega] at hsp
          rw [show 8 * (k + 1) - p = 8 * k - p + 8 by omega, hsp,
            bitSlice_byte hgetsome, bitsVal_append, natBits_length, bitsVal_natBits,
            Nat.mod_eq_of_lt (show F[k] < 2 ^ 8 from hblt)]
          rw [show (BYTE_SIZE : Nat) = 8 from rfl, Nat.shiftLeft_eq, Nat.lor_comm,
            mul_pow_lor_eq_add _ _ _ hblt]
        obtain ⟨k', h1, h2, h3, heq⟩ := ih (k + 1) (by omega) (by omega) (by omega)
          (by omega) rest_f
        refine ⟨k', h1, h2, h3, ?_⟩
        rw [hdrop, readBitLoop_cons (by omega)]
        rw [hstep, show 8 * k - p + BYTE_SIZE = 8 * (k + 1) - p by
          simp only [BYTE_SIZE]; omega]
        exact heq

theorem RInv_init (F : List Nat) (hF : ∀ b ∈ F, b < 256) :
    RInv (BitReaderState.init F) F 0 :=
  ⟨0, by omega, by simp [BitReaderState.init], by norm_num [BitReaderState.init],
    by simp [BitReaderState.init], by simp [BitReaderState.init, bitSlice, bitsVal],
    rfl, hF⟩

/-- `BitReader.read w` at bit position `p` returns the bits `[p, p + w)` of
the file (when they exist) and moves to position `p + w`. -/
theorem RInv_read {st : BitReaderState} {F : List Nat} {p : Nat}
    (h : RInv st F p) (w : Nat) (hw : 1 ≤ w) (hbound : p + w ≤ 8 * F.length) :
    ∃ st' : BitReaderState,
      st.read w = some (bitsVal (bitSlice F p w), st') ∧ RInv st' F (p + w) := by
  obtain ⟨k, hk, hrem, hcnt, hpk, hrest, heof, hF⟩ := h
  obtain ⟨k', h1, h2, h3, heq⟩ := readBitLoop_go F hF w p hbound F.length k
    (by omega) hk (by omega) (by omega) (bitsVal (bitSlice F p (8 * k - p)))
  have hcount : st.read_bit_count = 8 * k - p := by omega
  refine ⟨{ st with
      bits_per_read := w
      remaining := F.drop k'
      read_bit_count := 8 * k' - (p + w)
      unaligned_rest := bitsVal (bitSlice F (p + w) (8 * k' - (p + w)))
      eof := false }, ?_, ?_⟩
  · unfold BitReaderState.read BitReaderState.next
    rw [if_neg (by simp [heof])]
    have harg : readBitLoop w st.remaining st.read_bit_count st.unaligned_rest
        st.unaligned_rest =
        (bitsVal (bitSlice F p w), F.drop k', 8 * k' - (p + w),
          bitsVal (bitSlice F (p + w) (8 * k' - (p + w))), false) := by
      rw [hrem, hcount, hrest, hcount]
      exact heq
    simp only [harg]
  · exact ⟨k', h1, rfl, show 8 * k' - (p + w) < 8 by omega,
      show p + w + (8 * k' - (p + w)) = 8 * k' by omega, rfl, rfl, hF⟩

theorem valueBits_length (ws : List (Nat × Nat)) :
    (valueBits ws).length = totalBits ws := by
  induction ws with
  | nil => rfl
  | cons p tl ih =>
      unfold valueBits totalBits at *
      rw [List.flatMap_cons, List.length_append, natBits_length, ih, List.map_cons,
        List.sum_cons]

/-- Reading back a sequence of in-range `(value, width)` pairs whose bits sit
at position `p` of the file returns exactly the values. -/
theorem readValues_go (F : List Nat) :
    ∀ (ws : List (Nat × Nat)) (st : BitReaderState) (p : Nat),
      RInv st F p →
      (∀ q ∈ ws, 1 ≤ q.2 ∧ q.1 < 2 ^ q.2) →
      p + totalBits ws ≤ 8 * F.length →
      bitSlice F p (totalBits ws) = valueBits ws →
      readValues st (ws.map Prod.snd) = ws.map Prod.fst := by
  intro ws
  induction ws with
  | nil => intro st p _ _ _ _; rfl
  | cons q tl ih =>
      intro st p hinv hws hbound hbits
      have hq := hws q (by simp)
      have htot : totalBits (q :: tl) = q.2 + totalBits tl := by
        unfold totalBits
        rw [List.map_cons, List.sum_cons]
      obtain ⟨st', hread, hinv'⟩ := RInv_read hinv q.2 hq.1 (by omega)
      have hsplit := bitSlice_split F p q.2 (totalBits tl)
      rw [← htot, hbits] at hsplit
      have hvb : valueBits (q :: tl) = natBits q.1 q.2 ++ valueBits tl := by
        unfold valueBits
        rw [List.flatMap_cons]
      rw [hvb] at hsplit
      have hlen1 : (bitSlice F p q.2).length = q.2 :=
        bitSlice_length (by omega)
      have hlen2 : (natBits q.1 q.2).length = q.2 := natBits_length _ _
      have hinj := List.append_inj hsplit.symm (by omega)
      have hv : bitsVal (bitSlice F p q.2) = q.1 := by
        rw [hinj.1, bitsVal_natBits, Nat.mod_eq_of_lt hq.2]
      show readValues st (q.2 :: tl.map Prod.snd) = q.1 :: tl.map Prod.fst
      rw [readValues, hread]
      show bitsVal (bitSlice F p q.2) :: readValues st' (tl.map Prod.snd) =
        q.1 :: tl.map Prod.fst
      rw [hv]
      congr 1
      exact ih st' (p + q.2) hinv' (fun r hr => hws r (by simp [hr])) (by omega)
        hinj.2

/-- The bits of the file written by in-range writes: the value bits followed
by the zero padding, and every byte is in range. -/
theorem writeFileBytes_bits (ws : List (Nat × Nat))
    (h : ∀ p ∈ ws, 1 ≤ p.2 ∧ p.1 < 2 ^ p.2) :
    bytesToBits (writeFileBytes ws) =
      valueBits ws ++ List.replicate (8 - (valueBits ws).length % 8) false ∧
    (∀ b ∈ writeFileBytes ws, b < 256) := by
  have hinv := WInv_writeValues ws BitWriterState.init [] WInv_init h
  rw [List.nil_append] at hinv
  obtain ⟨hbits, hlt, hmod⟩ := WInv_close hinv
  constructor
  · show bytesToBits (writeValues BitWriterState.init ws).close = _
    rw [hbits, hmod]
  · exact hlt

/-- Write/read round trip over a fresh writer and reader. -/
theorem writeRead_roundtrip (ws : List (Nat × Nat))
    (h : ∀ p ∈ ws, 1 ≤ p.2 ∧ p.1 < 2 ^ p.2) :
    readValues (BitReaderState.init (writeFileBytes ws)) (ws.map Prod.snd) =
      ws.map Prod.fst := by
  obtain ⟨hbits, hlt⟩ := writeFileBytes_bits ws h
  have hlen := congrArg List.length hbits
  rw [bytesToBits_length, List.length_append, valueBits_length] at hlen
  apply readValues_go (writeFileBytes ws) ws _ 0 (RInv_init _ hlt) h
  · omega
  · unfold bitSlice
    rw [hbits, List.drop_zero, ← valueBits_length, List.take_left]

/-! ## Truncation behaviour of `BitWriter.write` -/

theorem shiftRight_mod_pow (v a b : Nat) :
    (v % 2 ^ (a + b)) >>> a = (v >>> a) % 2 ^ b := by
  apply Nat.eq_of_testBit_eq
  intro i
  rw [Nat.testBit_shiftRight, Nat.testBit_mod_two_pow, Nat.testBit_mod_two_pow,
    Nat.testBit_shiftRight]
  by_cases hib : i < b
  · have h2 : a + i < a + b := by omega
    simp [hib, h2]
  · have h2 : ¬ (a + i < a + b) := by omega
    simp [hib, h2]

theorem natBits_shiftRight_mod {v w r n : Nat} (h : r + n ≤ w) :
    natBits ((v % 2 ^ w) >>> r) n = natBits (v >>> r) n := by
  unfold natBits
  refine List.map_congr_left (fun i hi => ?_)
  rw [List.mem_range] at hi
  rw [Nat.testBit_shiftRight, Nat.testBit_shiftRight, Nat.testBit_mod_two_pow]
  have h2 : r + (n - 1 - i) < w := by omega
  simp [h2]

/-- When at least one byte is flushed (`8 ≤ nbits + unalignment`), `write`
only uses the `nbits` low bits of the value: oversized values are truncated.
(When no byte is flushed and the writer is unaligned this can fail: bits of
the value at positions `nbits` up to `nbits + unalignment - 1` are or-ed
into the staged byte, see the counterexample for C10.  A byte-aligned
writer truncates even without a flush, see `write_truncates_aligned`.) -/
theorem write_truncates {st : BitWriterState} (huna : st.unalignment < 8)
    {v w : Nat} (hw : 8 ≤ w + st.unalignment) :
    st.write (v : Int) w = st.write ((v % 2 ^ w : Nat) : Int) w := by
  have hpos : (0:Int) ≤ (w : Int) - ((BYTE_SIZE : Int) - (st.unalignment : Int)) := by
    simp only [BYTE_SIZE]
    push_cast
    omega
  set s0 : Nat := w + st.unalignment - 8 with hs0
  have hs0' : ((w : Int) - ((BYTE_SIZE : Int) - (st.unalignment : Int))).toNat = s0 := by
    simp only [BYTE_SIZE]
    omega
  have hs0w : s0 + (8 - st.unalignment) = w := by omega
  have hs0le : s0 ≤ w := by omega
  have hr8 : s0 % 8 < 8 := Nat.mod_lt _ (by norm_num)
  -- the first byte agrees
  have hmask : BYTE_MASK >>> st.unalignment = 2 ^ (8 - st.unalignment) - 1 :=
    byteMask_shift (by omega)
  have hfirst : pyAnd (pyShr ((v % 2 ^ w : Nat) : Int) s0) (BYTE_MASK >>> st.unalignment) |||
      st.unaligned_rest =
      pyAnd (pyShr (v : Int) s0) (BYTE_MASK >>> st.unalignment) ||| st.unaligned_rest := by
    rw [pyShr_ofNat, pyShr_ofNat, hmask, pyAnd_ofNat_mask, pyAnd_ofNat_mask]
    rw [← hs0w, shiftRight_mod_pow, Nat.mod_mod_of_dvd _ dvd_rfl]
  set B0 : Nat :=
    pyAnd (pyShr (v : Int) s0) (BYTE_MASK >>> st.unalignment) ||| st.unaligned_rest with hB0
  obtain ⟨c1, e1, l1, b1⟩ := writeShiftLoop_tail v
    ((w : Int) - ((BYTE_SIZE : Int) - (st.unalignment : Int)) - 8) (by omega)
    (st.out ++ [B0])
  obtain ⟨c2, e2, l2, b2⟩ := writeShiftLoop_tail (v % 2 ^ w)
    ((w : Int) - ((BYTE_SIZE : Int) - (st.unalignment : Int)) - 8) (by omega)
    (st.out ++ [B0])
  have htn : (((w : Int) - ((BYTE_SIZE : Int) - (st.unalignment : Int)) - 8) + 8).toNat
      = s0 := by
    simp only [BYTE_SIZE]
    omega
  rw [htn] at e1 b1 e2 b2
  have hcc : c2 = c1 := by
    have hbb : bytesToBits c2 = bytesToBits c1 := by
      rw [b1, b2, natBits_shiftRight_mod (by omega : s0 % 8 + (s0 - s0 % 8) ≤ w)]
    rw [← bitsToBytes_bytesToBits l1, ← bitsToBytes_bytesToBits l2, hbb]
  rw [hcc] at e2
  have hrest2 : ∀ x : Nat, pyAnd (pyShl (x : Int) (BYTE_SIZE - s0 % 8)) BYTE_MASK =
      (x * 2 ^ (8 - s0 % 8)) % 2 ^ 8 := by
    intro x
    have hx : pyShl (x : Int) (BYTE_SIZE - s0 % 8) =
        ((x * 2 ^ (8 - s0 % 8) : Nat) : Int) := by
      unfold pyShl
      simp only [BYTE_SIZE]
      push_cast
      ring
    rw [hx, byteMask_eq, pyAnd_ofNat_mask]
  have hrest : pyAnd (pyShl ((v % 2 ^ w : Nat) : Int) (BYTE_SIZE - s0 % 8)) BYTE_MASK =
      pyAnd (pyShl (v : Int) (BYTE_SIZE - s0 % 8)) BYTE_MASK := by
    rw [hrest2, hrest2]
    have h8 : (2:Nat) ^ 8 = 2 ^ (s0 % 8) * 2 ^ (8 - s0 % 8) := by
      rw [← Nat.pow_add]
      congr 1
      omega
    rw [h8, Nat.mul_mod_mul_right, Nat.mul_mod_mul_right,
      Nat.mod_mod_of_dvd _ (Nat.pow_dvd_pow 2 (by omega : s0 % 8 ≤ w))]
  simp only [BitWriterState.write]
  rw [writeShiftLoop_pos _ hpos, writeShiftLoop_pos _ hpos, hs0', hfirst, ← hB0, e1, e2]
  have h2 : ((((s0 % 8 : Nat) : Int) - 8) + 8).toNat = s0 % 8 := by omega
  simp only [h2]
  rw [show BYTE_SIZE - (s0 % 8) = BYTE_SIZE - s0 % 8 from rfl, hrest]

/-- When no byte is flushed (`nbits + unalignment < 8`) `write` only updates
the unalignment fields: the staged byte ors in `(value << (8 - nbits -
unalignment)) & 0xFF`, which keeps exactly the bits of the value at
positions below `nbits + unalignment`. -/
theorem write_noflush (st : BitWriterState) (value : Int) (w : Nat)
    (hw : w + st.unalignment < 8) :
    st.write value w =
      ⟨st.out, w + st.unalignment,
        pyAnd (pyShl value (BYTE_SIZE - (w + st.unalignment))) BYTE_MASK |||
          st.unaligned_rest⟩ := by
  have hneg : (w : Int) - ((BYTE_SIZE : Int) - (st.unalignment : Int)) < 0 := by
    simp only [BYTE_SIZE]
    push_cast
    omega
  simp only [BitWriterState.write]
  rw [writeShiftLoop_neg _ hneg]
  have htn : (((w : Int) - ((BYTE_SIZE : Int) - (st.unalignment : Int))) + 8).toNat
      = w + st.unalignment := by
    simp only [BYTE_SIZE]
    omega
  simp only [htn]

/-- A byte-aligned writer (`unalignment = 0`) truncates every oversized
value, also when no byte is flushed: the staged-byte mask then keeps only
the bits below `nbits`. -/
theorem write_truncates_aligned {st : BitWriterState} (huna : st.unalignment = 0)
    (v w : Nat) :
    st.write (v : Int) w = st.write ((v % 2 ^ w : Nat) : Int) w := by
  rcases le_or_lt 8 (w + st.unalignment) with h8 | h8
  · exact write_truncates (by omega) h8
  · rw [write_noflush st _ w h8, write_noflush st _ w h8, huna]
    simp only [Nat.add_zero]
    have hx : ∀ x : Nat, pyAnd (pyShl (x : Int) (BYTE_SIZE - w)) BYTE_MASK
        = (x * 2 ^ (8 - w)) % 2 ^ 8 := by
      intro x
      have h1 : pyShl (x : Int) (BYTE_SIZE - w) = ((x * 2 ^ (8 - w) : Nat) : Int) := by
        unfold pyShl
        simp only [BYTE_SIZE]
        push_cast
        ring
      rw [h1, byteMask_eq, pyAnd_ofNat_mask]
    rw [hx, hx]
    have h8' : (2 : Nat) ^ 8 = 2 ^ w * 2 ^ (8 - w) := by
      rw [← Nat.pow_add]
      congr 1
      omega
    rw [h8', Nat.mul_mod_mul_right, Nat.mul_mod_mul_right,
      Nat.mod_mod_of_dvd _ dvd_rfl]

/-! ## The shared code-width rule on the encoder side -/

/-- One application of the width rule `bits += next >> bits` keeps
`bits = Nat.size (next - 1)` across `next = n ↦ n + 1`. -/
theorem size_step (n : Nat) :
    Nat.size (n - 1) + (n >>> Nat.size (n - 1)) = Nat.size n := by
  rcases Nat.eq_zero_or_pos n with h | h
  · subst h
    simp
  · set s := Nat.size (n - 1) with hs
    have hlt : n - 1 < 2 ^ s := Nat.lt_size_self _
    by_cases hn : n < 2 ^ s
    · have h0 : n >>> s = 0 := by
        rw [Nat.shiftRight_eq_div_pow]
        exact Nat.div_eq_of_lt hn
      have hle : Nat.size n ≤ s := Nat.size_le.mpr hn
      have hge : s ≤ Nat.size n := Nat.size_le_size (by omega)
      omega
    · have hn' : n = 2 ^ s := by omega
      rw [hn']
      have h1 : (2 ^ s) >>> s = 1 := by
        rw [Nat.shiftRight_eq_div_pow, Nat.div_self (by positivity)]
      rw [h1, Nat.size_pow]

theorem insert_width {st : CompressorState}
    (h : st.current_sequence_bit_count = Nat.size (st.next_sequence_number - 1))
    (p : Int) (e : Nat) :
    (st.insert_next_sequence p e).current_sequence_bit_count =
      Nat.size ((st.insert_next_sequence p e).next_sequence_number - 1) := by
  show st.current_sequence_bit_count +
      (st.next_sequence_number >>> st.current_sequence_bit_count) =
    Nat.size (st.next_sequence_number + 1 - 1)
  rw [h, Nat.add_sub_cancel]
  exact size_step st.next_sequence_number

theorem initLoop_width {st : CompressorState}
    (h : st.current_sequence_bit_count = Nat.size (st.next_sequence_number - 1)) :
    ∀ n : Nat, (CompressorState.initLoop st n).current_sequence_bit_count =
      Nat.size ((CompressorState.initLoop st n).next_sequence_number - 1) := by
  intro n
  induction n with
  | zero => exact h
  | succ n ih => exact insert_width ih _ _

set_option maxRecDepth 4000 in
theorem init_width : CompressorState.init.current_sequence_bit_count =
    Nat.size (CompressorState.init.next_sequence_number - 1) := by
  have h0 : (⟨[], 0, 0⟩ : CompressorState).current_sequence_bit_count =
      Nat.size ((⟨[], 0, 0⟩ : CompressorState).next_sequence_number - 1) := by
    simp
  exact insert_width (initLoop_width h0 LZWConstants.ALPHABET_SIZE) _ _

/-- The encoder's current bit count always equals the size in bits of the
last assigned sequence number, for every state reachable by the main loop. -/
theorem compressLoop_width :
    ∀ (input : List Nat) (cst : CompressorState) (parent : Int)
      (wst : BitWriterState) (trace : List (Int × Nat)),
      cst.current_sequence_bit_count = Nat.size (cst.next_sequence_number - 1) →
      (compressLoop cst parent wst trace input).1.current_sequence_bit_count =
        Nat.size ((compressLoop cst parent wst trace input).1.next_sequence_number - 1) := by
  intro input
  induction input with
  | nil => intro cst parent wst trace h; exact h
  | cons c cs ih =>
      intro cst parent wst trace h
      have hstep : (compressStep cst parent wst trace c).1.current_sequence_bit_count =
          Nat.size ((compressStep cst parent wst trace c).1.next_sequence_number - 1) := by
        unfold compressStep
        cases hm : cst.get_sequence parent c with
        | some seq => exact h
        | none => exact insert_width h _ _
      exact ih _ _ _ _ hstep

/-! ## Decoder loop behaviour -/

/-- The decoder's loop body on a sequence number `seq` that is neither the
stream-end marker nor below `next_sequence_number`: it is treated exactly
like the special (KWKWK) case `seq = next_sequence_number` and decoding
continues normally, with no error. -/
theorem decompressStep_special (dst : DecompressorState)
    (spp sp : List Nat) (spf : Nat) (reader : BitReaderState) (seq : Nat)
    (hend : seq ≠ LZWConstants.STREAM_END)
    (hk : ¬ seq < dst.next_sequence_number) :
    decompressStep dst spp sp spf reader seq =
      .continue (dst.insert_next_sequence_path (spp ++ [spf])) (spp ++ [spf]) sp spf
        (reader.set_bits_per_read
          (dst.insert_next_sequence_path (spp ++ [spf])).current_sequence_bit_count)
        (spp ++ [spf]) := by
  unfold decompressStep
  rw [if_neg hend]
  simp only [decide_eq_true_eq, hk, decide_eq_false, if_false]

/-- When the reader has reached end of file, the decoder loop stops normally
(`StopIteration` ends the `for` loop) and decoding reports success. -/
theorem decompressGo_eof (fuel : Nat) (dst : DecompressorState)
    (spp sp : List Nat) (spf : Nat) (reader : BitReaderState) (out : List Nat)
    (heof : reader.eof = true) :
    decompressGo (fuel + 1) dst spp sp spf reader out = some out := by
  unfold decompressGo BitReaderState.next
  rw [if_pos heof]

/-- `next >> size (next - 1)` is 1 exactly when `next` is `2 ^ width` (the
encoder widens one step after the decoder's `2 ^ width - 1`). -/
theorem shiftRight_size_eq_if (n : Nat) :
    n >>> Nat.size (n - 1) = if n = 2 ^ Nat.size (n - 1) then 1 else 0 := by
  rcases Nat.eq_zero_or_pos n with h | h
  · subst h
    simp
  · set s := Nat.size (n - 1) with hs
    have hlt : n - 1 < 2 ^ s := Nat.lt_size_self _
    by_cases hn : n < 2 ^ s
    · rw [Nat.shiftRight_eq_div_pow, Nat.div_eq_of_lt hn, if_neg (by omega)]
    · have hn' : n = 2 ^ s := by omega
      rw [if_pos hn', hn', Nat.shiftRight_eq_div_pow, Nat.div_self (by positivity)]

/-! ## The trace of scenario S5 (all byte values 0..255 in order) -/

/-- Structure eta for `CompressorState`. -/
theorem CompressorState.eta (st : CompressorState) :
    st = ⟨st.sequence_table, st.next_sequence_number, st.current_sequence_bit_count⟩ := rfl

/-- Unfolding `lookupTable` on a cons cell. -/
theorem lookupTable_cons (k : Int × Nat) (v : Nat) (tl : List ((Int × Nat) × Nat))
    (p : Int) (e : Nat) :
    CompressorState.lookupTable ((k, v) :: tl) p e =
      if k = (p, e) then some v else CompressorState.lookupTable tl p e := rfl

/-- Unfolding `compressLoop` on a cons cell. -/
theorem compressLoop_cons (cst : CompressorState) (p : Int) (w : BitWriterState)
    (tr : List (Int × Nat)) (c : Nat) (cs : List Nat) :
    compressLoop cst p w tr (c :: cs) =
      compressLoop (compressStep cst p w tr c).1 (compressStep cst p w tr c).2.1
        (compressStep cst p w tr c).2.2.1 (compressStep cst p w tr c).2.2.2 cs := rfl

/-- The next sequence number after the alphabet-initialization loop. -/
theorem initLoop_next (n : Nat) :
    (CompressorState.initLoop ⟨[], 0, 0⟩ n).next_sequence_number = n := by
  induction n with
  | zero => rfl
  | succ n ih =>
      show (CompressorState.initLoop ⟨[], 0, 0⟩ n).next_sequence_number + 1 = n + 1
      rw [ih]

/-- Alphabet entries: `(ROOT, c)` is mapped to `c` by the initialization loop. -/
theorem initLoop_lookup_hit : ∀ (n c : Nat), c < n →
    CompressorState.lookupTable
      (CompressorState.initLoop ⟨[], 0, 0⟩ n).sequence_table (-1) c = some c := by
  intro n
  induction n with
  | zero => intro c hc; exact absurd hc (Nat.not_lt_zero c)
  | succ n ih =>
      intro c hc
      rw [show (CompressorState.initLoop ⟨[], 0, 0⟩ (n + 1)).sequence_table =
          ((LZWConstants.ROOT, n),
            (CompressorState.initLoop ⟨[], 0, 0⟩ n).next_sequence_number) ::
            (CompressorState.initLoop ⟨[], 0, 0⟩ n).sequence_table from rfl]
      rw [lookupTable_cons]
      by_cases hcn : c = n
      · subst hcn
        rw [if_pos (show (LZWConstants.ROOT, c) = ((-1 : Int), c) from rfl),
          initLoop_next]
      · have hne : ¬ ((LZWConstants.ROOT, n) = ((-1 : Int), c)) := by
          simp only [Prod.mk.injEq, not_and]
          intro _ h2
          exact hcn h2.symm
        rw [if_neg hne]
        exact ih c (by omega)
/-- No key with a non-negative parent is in the initialization table. -/
theorem initLoop_lookup_nonneg : ∀ (n : Nat) (p : Int), 0 ≤ p → ∀ (e : Nat),
    CompressorState.lookupTable
      (CompressorState.initLoop ⟨[], 0, 0⟩ n).sequence_table p e = none := by
  intro n
  induction n with
  | zero => intro p hp e; rfl
  | succ n ih =>
      intro p hp e
      rw [show (CompressorState.initLoop ⟨[], 0, 0⟩ (n + 1)).sequence_table =
          ((LZWConstants.ROOT, n),
            (CompressorState.initLoop ⟨[], 0, 0⟩ n).next_sequence_number) ::
            (CompressorState.initLoop ⟨[], 0, 0⟩ n).sequence_table from rfl]
      rw [lookupTable_cons]
      have hne : ¬ ((LZWConstants.ROOT, n) = (p, e)) := by
        simp only [Prod.mk.injEq, not_and]
        intro h1
        exact absurd (show (-1 : Int) = p from h1) (by omega)
      rw [if_neg hne]
      exact ih p hp e

/-- After `_init` the next sequence number is 257. -/
theorem init_next : CompressorState.init.next_sequence_number = 257 := by
  show (CompressorState.initLoop ⟨[], 0, 0⟩ 256).next_sequence_number + 1 = 257
  rw [initLoop_next]

/-- After `_init` the current bit count is 9. -/
theorem init_bit : CompressorState.init.current_sequence_bit_count = 9 := by
  have h := init_width
  rw [init_next] at h
  norm_num at h
  rw [h]
  exact le_antisymm (Nat.size_le.mpr (by norm_num)) (Nat.lt_size.mpr (by norm_num))

/-- Alphabet lookups on the full initial table. -/
theorem init_table_hit (c : Nat) (hc : c ≤ 255) :
    CompressorState.lookupTable CompressorState.init.sequence_table (-1) c = some c := by
  rw [show CompressorState.init.sequence_table =
      ((LZWConstants.ROOT, LZWConstants.STREAM_END),
        (CompressorState.initLoop ⟨[], 0, 0⟩ 256).next_sequence_number) ::
        (CompressorState.initLoop ⟨[], 0, 0⟩ 256).sequence_table from rfl]
  rw [lookupTable_cons]
  have hne : ¬ ((LZWConstants.ROOT, LZWConstants.STREAM_END) = ((-1 : Int), c)) := by
    simp only [Prod.mk.injEq, not_and]
    intro _
    show ¬ (256 = c)
    omega
  rw [if_neg hne]
  exact initLoop_lookup_hit 256 c (by omega)

/-- No key with a non-negative parent is in the full initial table. -/
theorem init_table_miss (p : Int) (hp : 0 ≤ p) (e : Nat) :
    CompressorState.lookupTable CompressorState.init.sequence_table p e = none := by
  rw [show CompressorState.init.sequence_table =
      ((LZWConstants.ROOT, LZWConstants.STREAM_END),
        (CompressorState.initLoop ⟨[], 0, 0⟩ 256).next_sequence_number) ::
        (CompressorState.initLoop ⟨[], 0, 0⟩ 256).sequence_table from rfl]
  rw [lookupTable_cons]
  have hne : ¬ ((LZWConstants.ROOT, LZWConstants.STREAM_END) = (p, e)) := by
    simp only [Prod.mk.injEq, not_and]
    intro h1
    exact absurd (show (-1 : Int) = p from h1) (by omega)
  rw [if_neg hne]
  exact initLoop_lookup_nonneg 256 p hp e

set_option maxHeartbeats 1000000 in
/-- Main induction for scenario S5: processing the remaining bytes
`i+1 .. 255` from a state whose table answers the alphabet lookups and
misses the chain keys, with `next = 257 + i` and bit count 9, emits exactly
the codes `i, i+1, .., 254`, all at width 9. -/
theorem s5_loop : ∀ (k i : Nat), i + k = 255 →
    ∀ (T : List ((Int × Nat) × Nat)) (w : BitWriterState) (tr : List (Int × Nat)),
      (∀ c, c ≤ 255 → CompressorState.lookupTable T (-1) c = some c) →
      (∀ c, i < c → c ≤ 255 →
        CompressorState.lookupTable T ((c - 1 : Nat) : Int) c = none) →
      ∃ (T' : List ((Int × Nat) × Nat)) (w' : BitWriterState),
        compressLoop ⟨T, 257 + i, 9⟩ ((i : Nat) : Int) w tr (List.range' (i + 1) k) =
          (⟨T', 257 + 255, 9⟩, ((255 : Nat) : Int), w',
            tr ++ (List.range' (i + 1) k).map (fun c => (((c - 1 : Nat) : Int), 9))) := by
  intro k
  induction k with
  | zero =>
      intro i hik T w tr h1 h2
      have hi : i = 255 := by omega
      subst hi
      refine ⟨T, w, ?_⟩
      show ((⟨T, 257 + 255, 9⟩ : CompressorState), ((255 : Nat) : Int), w, tr) =
        ((⟨T, 257 + 255, 9⟩ : CompressorState), ((255 : Nat) : Int), w,
          tr ++ ([] : List (Int × Nat)))
      rw [List.append_nil]
  | succ k ih =>
      intro i hik T w tr h1 h2
      have hmiss : CompressorState.get_sequence ⟨T, 257 + i, 9⟩ ((i : Nat) : Int)
          (i + 1) = none := by
        show CompressorState.lookupTable T ((i : Nat) : Int) (i + 1) = none
        have h := h2 (i + 1) (by omega) (by omega)
        simpa using h
      have hstep : compressStep ⟨T, 257 + i, 9⟩ ((i : Nat) : Int) w tr (i + 1) =
          (⟨((((i : Nat) : Int), i + 1), 257 + i) :: T, 257 + i + 1,
              9 + ((257 + i) >>> 9)⟩,
            ((i + 1 : Nat) : Int),
            w.write ((i : Nat) : Int) 9,
            tr ++ [(((i : Nat) : Int), 9)]) := by
        unfold compressStep
        rw [hmiss]
        show ((⟨((((i : Nat) : Int), i + 1), 257 + i) :: T, 257 + i + 1,
              9 + ((257 + i) >>> 9)⟩ : CompressorState),
            (((CompressorState.lookupTable
                (((((i : Nat) : Int), i + 1), 257 + i) :: T) (-1) (i + 1)).getD 0
                : Nat) : Int),
            w.write ((i : Nat) : Int) 9,
            tr ++ [(((i : Nat) : Int), 9)]) = _
        rw [lookupTable_cons]
        have hne : ¬ (((((i : Nat) : Int), i + 1)) = ((-1 : Int), i + 1)) := by
          simp only [Prod.mk.injEq, not_and]
          intro h
          omega
        rw [if_neg hne, h1 (i + 1) (by omega)]
        rfl
      have hbit : 9 + ((257 + i) >>> 9) = 9 := by
        have hlt : 257 + i < 2 ^ 9 := by norm_num; omega
        rw [Nat.shiftRight_eq_div_pow, Nat.div_eq_of_lt hlt]
      have h1' : ∀ c, c ≤ 255 → CompressorState.lookupTable
          (((((i : Nat) : Int), i + 1), 257 + i) :: T) (-1) c = some c := by
        intro c hc
        rw [lookupTable_cons]
        have hne : ¬ (((((i : Nat) : Int), i + 1)) = ((-1 : Int), c)) := by
          simp only [Prod.mk.injEq, not_and]
          intro h
          omega
        rw [if_neg hne]
        exact h1 c hc
      have h2' : ∀ c, i + 1 < c → c ≤ 255 → CompressorState.lookupTable
          (((((i : Nat) : Int), i + 1), 257 + i) :: T) ((c - 1 : Nat) : Int) c
            = none := by
        intro c hc1 hc2
        rw [lookupTable_cons]
        have hne : ¬ (((((i : Nat) : Int), i + 1)) = (((c - 1 : Nat) : Int), c)) := by
          simp only [Prod.mk.injEq, not_and]
          intro _ h
          omega
        rw [if_neg hne]
        exact h2 c (by omega) hc2
      obtain ⟨T', w', hIH⟩ := ih (i + 1) (by omega)
        (((((i : Nat) : Int), i + 1), 257 + i) :: T)
        (w.write ((i : Nat) : Int) 9) (tr ++ [(((i : Nat) : Int), 9)]) h1' h2'
      refine ⟨T', w', ?_⟩
      rw [List.range'_succ, compressLoop_cons, hstep]
      dsimp only
      rw [hbit]
      rw [List.map_cons]
      simp only [Nat.add_sub_cancel]
      conv_rhs => rw [List.append_cons]
      exact hIH

set_option maxHeartbeats 1000000 in
/-- The full `(code, width)` trace of the scenario S5 (all byte values
0..255 in order): all 257 codes, the stream-end marker included, are
written at width 9. -/
theorem s5_trace_eq :
    compressTrace (List.range 256) =
      (List.range 257).map (fun (i : Nat) => ((i : Int), 9)) := by
  have hinit : CompressorState.init =
      ⟨CompressorState.init.sequence_table, 257, 9⟩ := by
    conv_lhs => rw [CompressorState.eta CompressorState.init]
    rw [init_next, init_bit]
  have hfirst : compressLoop CompressorState.init LZWConstants.ROOT
      BitWriterState.init [] (0 :: List.range' 1 255) =
    compressLoop CompressorState.init ((0 : Nat) : Int) BitWriterState.init []
      (List.range' 1 255) := by
    rw [compressLoop_cons]
    have hhit : CompressorState.get_sequence CompressorState.init
        LZWConstants.ROOT 0 = some 0 := init_table_hit 0 (by omega)
    rw [show compressStep CompressorState.init LZWConstants.ROOT
        BitWriterState.init [] 0 =
        (CompressorState.init, ((0 : Nat) : Int), BitWriterState.init,
          ([] : List (Int × Nat))) from by
      unfold compressStep
      rw [hhit]]
  obtain ⟨T', w', hloop⟩ := s5_loop 255 0 rfl CompressorState.init.sequence_table
    BitWriterState.init [] init_table_hit
    (fun c hc1 hc2 => init_table_miss ((c - 1 : Nat) : Int) (by omega) c)
  rw [hinit] at hloop
  simp only [Nat.add_zero, Nat.zero_add, List.nil_append] at hloop
  have hmapf : (List.range' 1 255).map (fun c => (((c - 1 : Nat) : Int), (9 : Nat))) =
      (List.range 255).map (fun (i : Nat) => ((i : Int), (9 : Nat))) := by
    rw [List.range'_eq_map_range, List.map_map]
    refine List.map_congr_left (fun a ha => ?_)
    simp [Nat.add_sub_cancel_left]
  have h257 : (List.range 257).map (fun (i : Nat) => ((i : Int), (9 : Nat))) =
      (List.range 255).map (fun (i : Nat) => ((i : Int), (9 : Nat))) ++
        [(((255 : Nat) : Int), 9), (((256 : Nat) : Int), 9)] := by
    rw [show (257 : Nat) = 256 + 1 from rfl, List.range_succ,
        show (256 : Nat) = 255 + 1 from rfl, List.range_succ]
    simp
  unfold compressTrace compressWithTrace
  rw [show List.range 256 = 0 :: List.range' 1 255 from by
    rw [List.range_eq_range']
    rfl]
  dsimp only
  rw [hfirst, hinit, hloop]
  dsimp only
  rw [hmapf, h257]
  simp [LZWConstants.STREAM_END, LZWConstants.ALPHABET_SIZE]

/-! ## Claims -/

/-- Claim C1 — round-trip identity fails on the code: the claim asserts
`decompress(compress(X)) = X` for every byte sequence `X` including the
empty one, but `LZWCompressor.compress` on an empty file writes the `ROOT`
sentinel `-1` as a 9-bit code before the stream-end marker, producing the
bytes `FF C0 00`; `LZWDecompressor.decompress` then reads the first 9-bit
code 511, which is outside the 257-entry table, and dies with an
`IndexError` (modelled by `none`) instead of reproducing the empty input. -/
theorem claim_C1 :
    compressBytes [] = [0xFF, 0xC0, 0x00] ∧
    compressTrace [] = [((-1 : Int), 9), ((256 : Int), 9)] ∧
    decompressBytes [0xFF, 0xC0, 0x00] = none := by
  refine ⟨by decide, by decide, by decide⟩

/-- Claim C2, counterexample — in scenario S5 (bytes 0..255 in order) the
stream-end marker is emitted at width 9, not width 10 as the claim states:
the encoder's width only increases after inserting code `2 ^ w`
(here 512), not after inserting `2 ^ w - 1` (511). -/
theorem claim_C2_counterexample :
    (compressTrace (List.range 256)).getLast? = some ((256 : Int), 9) ∧
    (compressTrace (List.range 256)).getLast? ≠ some ((256 : Int), 10) := by
  rw [s5_trace_eq]
  refine ⟨by decide, by decide⟩

/-- Claim C2, amended — the encoder's current bit count always equals the
bit-length of the last inserted code (so it becomes `w + 1` right after the
insertion of code `2 ^ w`, one step later than the claim states, the first
increase happening after inserting code 512); `_insert_next_sequence`
increments the width exactly when the inserted code is `2 ^ width`; and in
scenario S5 every code, the last data code 255 and the stream-end marker
included, is emitted at width 9. -/
theorem claim_C2 :
    (∀ input : List Nat,
      (compressLoop CompressorState.init LZWConstants.ROOT BitWriterState.init []
          input).1.current_sequence_bit_count =
        Nat.size ((compressLoop CompressorState.init LZWConstants.ROOT
          BitWriterState.init [] input).1.next_sequence_number - 1)) ∧
    (∀ (t : List ((Int × Nat) × Nat)) (n : Nat) (p : Int) (e : Nat),
      ((⟨t, n, Nat.size (n - 1)⟩ : CompressorState).insert_next_sequence
          p e).current_sequence_bit_count =
        Nat.size (n - 1) + (if n = 2 ^ Nat.size (n - 1) then 1 else 0)) ∧
    compressTrace (List.range 256) =
      (List.range 257).map (fun (i : Nat) => ((i : Int), 9)) := by
  refine ⟨?_, ?_, s5_trace_eq⟩
  · intro input
    exact compressLoop_width input _ _ _ _ init_width
  · intro t n p e
    show Nat.size (n - 1) + (n >>> Nat.size (n - 1)) = _
    rw [shiftRight_size_eq_if]

/-- Claim C3, counterexample — on the malformed file `20 CB 00` (first code
65, then code 300 which exceeds `next_sequence_number = 257`, then EOF with
no stream-end marker) the decoder does not fail: it treats code 300 via the
special KWKWK path and treats EOF as normal termination, completing with
output `[65, 65, 65, 0]` instead of surfacing an error. -/
theorem claim_C3_counterexample :
    decompressBytes [0x20, 0xCB, 0x00] = some [65, 65, 65, 0] ∧
    decompressBytes [0x20, 0xCB, 0x00] ≠ none := by
  refine ⟨by decide, by decide⟩

/-- Claim C3, amended — the decoder has no malformed-input detection: a code
`k` that is neither the stream-end marker nor below `next_sequence_number`
(so in particular every `k > next_sequence_number`) is consumed through the
special (KWKWK) insertion path exactly as if it were `next_sequence_number`,
and end of file before the stream-end marker simply ends the loop with the
decoder reporting success; e.g. the malformed file `20 CB 00` decodes
"successfully" to `[65, 65, 65, 0]`. -/
theorem claim_C3 :
    (∀ (dst : DecompressorState) (spp sp : List Nat) (spf : Nat)
        (reader : BitReaderState) (seq : Nat),
      seq ≠ LZWConstants.STREAM_END → ¬ seq < dst.next_sequence_number →
      decompressStep dst spp sp spf reader seq =
        .continue (dst.insert_next_sequence_path (spp ++ [spf])) (spp ++ [spf]) sp spf
          (reader.set_bits_per_read
            (dst.insert_next_sequence_path (spp ++ [spf])).current_sequence_bit_count)
          (spp ++ [spf])) ∧
    (∀ (fuel : Nat) (dst : DecompressorState) (spp sp : List Nat) (spf : Nat)
        (reader : BitReaderState) (out : List Nat),
      reader.eof = true →
      decompressGo (fuel + 1) dst spp sp spf reader out = some out) ∧
    decompressBytes [0x20, 0xCB, 0x00] = some [65, 65, 65, 0] := by
  exact ⟨decompressStep_special, decompressGo_eof, by decide⟩

/-- Claim C3, witness — the two general parts of the amended claim applied
at concrete inputs: the out-of-range code 300 in a fresh decoder state is
consumed by the KWKWK path, and a reader at EOF ends the loop successfully. -/
theorem claim_C3_witness :
    (300 ≠ LZWConstants.STREAM_END ∧
      ¬ 300 < DecompressorState.init.next_sequence_number ∧
      decompressStep DecompressorState.init [65] [65] 65
          (BitReaderState.init []) 300 =
        .continue (DecompressorState.init.insert_next_sequence_path ([65] ++ [65]))
          ([65] ++ [65]) [65] 65
          ((BitReaderState.init []).set_bits_per_read
            (DecompressorState.init.insert_next_sequence_path
              ([65] ++ [65])).current_sequence_bit_count)
          ([65] ++ [65])) ∧
    ((⟨[], 8, 0, 0, true⟩ : BitReaderState).eof = true ∧
      decompressGo 1 DecompressorState.init [65] [65] 65
        (⟨[], 8, 0, 0, true⟩ : BitReaderState) [65] = some [65]) := by
  refine ⟨⟨by decide, by decide,
    claim_C3.1 DecompressorState.init [65] [65] 65 (BitReaderState.init []) 300
      (by decide) (by decide)⟩,
    ⟨rfl, claim_C3.2.1 0 DecompressorState.init [65] [65] 65 _ [65] rfl⟩⟩

/-- Claim C4 — empty input does not compress to `80 00`: the code writes the
`ROOT` sentinel `-1` as a 9-bit code before the stream-end marker, so the
output file is `FF C0 00`, and decompressing it raises an `IndexError`
(code 511 is outside the table) instead of producing 0 bytes. -/
theorem claim_C4 :
    compressBytes [] = [0xFF, 0xC0, 0x00] ∧
    compressBytes [] ≠ [0x80, 0x00] ∧
    decompressBytes (compressBytes []) = none := by
  refine ⟨by decide, by decide, by decide⟩

/-- Claim C5, counterexample — `close()` always flushes one byte, so when
the writes fill the last byte exactly the file gains one extra `0x00` byte:
a single `write(0x41, 8)` followed by `close()` yields `41 00`, not `41` as
the claim requires. -/
theorem claim_C5_counterexample :
    writeFileBytes [(0x41, 8)] = [0x41, 0x00] ∧
    writeFileBytes [(0x41, 8)] ≠ [0x41] := by
  refine ⟨by decide, by decide⟩

/-- Claim C5, amended — for in-range writes (`value < 2 ^ nbits`,
`nbits ≥ 1`), the file is the concatenation of each value's `nbits` least
significant bits, in call order, packed big-endian within each byte, with
the final byte zero-padded on the low-order side — except that when the
total number of bits is a multiple of 8 the padding is a whole extra zero
byte (`8 - 0 = 8` zero bits), because `close()` always flushes one byte. -/
theorem claim_C5 (ws : List (Nat × Nat))
    (h : ∀ p ∈ ws, 1 ≤ p.2 ∧ p.1 < 2 ^ p.2) :
    writeFileBytes ws =
      bitsToBytes (valueBits ws ++
        List.replicate (8 - (valueBits ws).length % 8) false) :=
  writeFileBytes_spec ws h

/-- Claim C5, witness — the amended layout at a concrete write sequence
(12-bit value 297 then 5-bit value 11, as in the module's own example). -/
theorem claim_C5_witness :
    (∀ p ∈ [(297, 12), (11, 5)], 1 ≤ p.2 ∧ p.1 < 2 ^ p.2) ∧
    writeFileBytes [(297, 12), (11, 5)] =
      bitsToBytes (valueBits [(297, 12), (11, 5)] ++
        List.replicate (8 - (valueBits [(297, 12), (11, 5)]).length % 8) false) :=
  ⟨by decide, claim_C5 [(297, 12), (11, 5)] (by decide)⟩

/-- Claim C6 — BitWriter/BitReader round trip: writing any sequence of
values at widths in `[1, 32]` with each `value < 2 ^ width`, closing, and
reading back with the same widths returns exactly the written values. -/
theorem claim_C6 (ws : List (Nat × Nat))
    (h : ∀ p ∈ ws, 1 ≤ p.2 ∧ p.2 ≤ 32 ∧ p.1 < 2 ^ p.2) :
    readValues (BitReaderState.init (writeFileBytes ws)) (ws.map Prod.snd) =
      ws.map Prod.fst :=
  writeRead_roundtrip ws (fun p hp => ⟨(h p hp).1, (h p hp).2.2⟩)

/-- Claim C6, witness — the round trip at the concrete write sequence of the
module's own example, with a width change between the two values. -/
theorem claim_C6_witness :
    (∀ p ∈ [(297, 12), (11, 5)], 1 ≤ p.2 ∧ p.2 ≤ 32 ∧ p.1 < 2 ^ p.2) ∧
    readValues (BitReaderState.init (writeFileBytes [(297, 12), (11, 5)]))
        ([(297, 12), (11, 5)].map Prod.snd) =
      [(297, 12), (11, 5)].map Prod.fst :=
  ⟨by decide, claim_C6 [(297, 12), (11, 5)] (by decide)⟩

/-- Claim C7, counterexample — compressing the single byte `A` (0x41) does
not produce `20 B0 00`: the two 9-bit codes 65 and 256 pack to `20 C0 00`
(bits `001000001 100000000` plus 7 zero padding bits). -/
theorem claim_C7_counterexample :
    compressBytes [0x41] = [0x20, 0xC0, 0x00] ∧
    compressBytes [0x41] ≠ [0x20, 0xB0, 0x00] := by
  refine ⟨by decide, by decide⟩

/-- Claim C7, amended — compressing the single byte `A` (0x41) emits code 65
followed by the stream-end code 256, both at width 9, and the compressed
file is exactly the three bytes `20 C0 00`. -/
theorem claim_C7 :
    compressTrace [0x41] = [((65 : Int), 9), ((256 : Int), 9)] ∧
    compressBytes [0x41] = [0x20, 0xC0, 0x00] := by
  refine ⟨by decide, by decide⟩

/-- Claim C8 — missing-input handling: with a missing input file both
`compress` and `decompress` return `False` before creating any output;
with an existing input, `compress` always completes and returns `True`,
and `decompress` returns `True` whenever it completes. -/
theorem claim_C8 :
    compressFile none = (false, none) ∧
    decompressFile none = some (false, none) ∧
    (∀ bs : List Nat, compressFile (some bs) = (true, some (compressBytes bs))) ∧
    (∀ (bs out : List Nat), decompressBytes bs = some out →
      decompressFile (some bs) = some (true, some out)) := by
  refine ⟨rfl, rfl, fun bs => rfl, fun bs out h => ?_⟩
  show (match decompressBytes bs with
    | some out => some (true, some out)
    | none => none) = some (true, some out)
  rw [h]

/-- Claim C8, witness — the success path at a concrete existing input: the
empty file decompresses with result `True`. -/
theorem claim_C8_witness :
    decompressBytes [] = some [0] ∧
    decompressFile (some []) = some (true, some [0]) :=
  ⟨by decide, claim_C8.2.2.2 [] [0] (by decide)⟩

/-- Claim C9 — decompressing an existing empty file succeeds: the
`BitReader` yields its zero `unaligned_rest` once at EOF, the decoder
looks it up as code 0 and writes the single byte `0x00`, and `decompress`
returns `True`. -/
theorem claim_C9 :
    decompressBytes [] = some [0x00] ∧
    decompressFile (some []) = some (true, some [0x00]) := by
  refine ⟨by decide, by decide⟩

/-- Claim C10, counterexample — `write` does not always truncate oversized
values: after `write(4, 3)` (three staged bits), `write(2, 1)` or-s bit 1 of
the value into the staged byte, so it differs from `write(0, 1)` (with
`0 = 2 mod 2^1`): the files after `close()` are `A0` versus `80`. -/
theorem claim_C10_counterexample :
    (BitWriterState.init.write (4 : Int) 3).write (2 : Int) 1 ≠
      (BitWriterState.init.write (4 : Int) 3).write ((2 % 2 ^ 1 : Nat) : Int) 1 ∧
    ((BitWriterState.init.write (4 : Int) 3).write (2 : Int) 1).close = [0xA0] ∧
    ((BitWriterState.init.write (4 : Int) 3).write ((2 % 2 ^ 1 : Nat) : Int) 1).close =
      [0x80] := by
  refine ⟨by decide, by decide, by decide⟩

/-- Claim C10, amended — `write(value, nbits)` leaves the writer in the
same state and appends the same bytes as `write(value mod 2^nbits, nbits)`
whenever at least one byte is flushed (`8 ≤ nbits + unalignment`) and also
whenever the writer is byte-aligned (`unalignment = 0`); in the remaining
case (`nbits + unalignment < 8` with `0 < unalignment`) no byte is written
and the staged byte becomes `(value << (8 - nbits - unalignment)) & 0xFF |
rest`, which keeps exactly the bits of the value at positions below
`nbits + unalignment` — so the bits at positions `nbits` up to
`nbits + unalignment - 1` of an oversized value can corrupt the staged
bits (see the counterexample). -/
theorem claim_C10 :
    (∀ (st : BitWriterState) (v w : Nat), st.unalignment < 8 →
      8 ≤ w + st.unalignment →
      st.write (v : Int) w = st.write ((v % 2 ^ w : Nat) : Int) w) ∧
    (∀ (st : BitWriterState) (v w : Nat), st.unalignment = 0 →
      st.write (v : Int) w = st.write ((v % 2 ^ w : Nat) : Int) w) ∧
    (∀ (st : BitWriterState) (value : Int) (w : Nat), w + st.unalignment < 8 →
      st.write value w =
        ⟨st.out, w + st.unalignment,
          pyAnd (pyShl value (BYTE_SIZE - (w + st.unalignment))) BYTE_MASK |||
            st.unaligned_rest⟩) :=
  ⟨fun _ _ _ huna hw => write_truncates huna hw,
   fun _ v w huna => write_truncates_aligned huna v w,
   fun st value w hw => write_noflush st value w hw⟩

/-- Claim C10, witness — the three cases at concrete inputs: with a flush,
`write(1000, 9)` on a fresh writer equals `write(1000 mod 512, 9)`; with no
flush but byte-aligned, `write(9, 3)` on a fresh writer equals
`write(9 mod 8, 3)`; and after `write(4, 3)` the unaligned `write(2, 1)`
flushes nothing and stages the byte `0xA0` per the no-flush formula. -/
theorem claim_C10_witness :
    BitWriterState.init.unalignment = 0 ∧
    8 ≤ 9 + BitWriterState.init.unalignment ∧
    1 + (BitWriterState.init.write (4 : Int) 3).unalignment < 8 ∧
    BitWriterState.init.write ((1000 : Nat) : Int) 9 =
      BitWriterState.init.write ((1000 % 2 ^ 9 : Nat) : Int) 9 ∧
    BitWriterState.init.write ((9 : Nat) : Int) 3 =
      BitWriterState.init.write ((9 % 2 ^ 3 : Nat) : Int) 3 ∧
    (BitWriterState.init.write (4 : Int) 3).write (2 : Int) 1 =
      ⟨[], 4, 0xA0⟩ :=
  ⟨rfl, by decide, by decide,
    claim_C10.1 BitWriterState.init 1000 9 (by decide) (by decide),
    claim_C10.2.1 BitWriterState.init 9 3 rfl,
    claim_C10.2.2 (BitWriterState.init.write (4 : Int) 3) (2 : Int) 1 (by decide)⟩

end LZW3
